import Mathlib

/-!
# Verification of the mygit persistence core

Shallow embedding of the object codec, object store, index codec and tree
builder of the `mygit` reimplementation, together with proofs of the
specification's claims about them.

Modelling conventions:
* JavaScript strings and Node `Buffer`s are both modelled as lists of bytes
  (`List Nat`, each element `< 256`); a string is identified with its UTF-8
  byte sequence, so `<` on strings is byte-wise lexicographic comparison and
  `.length` is the byte count (exact for the ASCII data the formats use).
* `Buffer` reads/writes (`readUInt32BE`, …) are explicit base-256 arithmetic.
* Thrown exceptions are modelled with `Except`, one error constructor per
  `throw` site.
* `Array.prototype.sort` with a comparator is modelled by the stable
  `List.insertionSort` on the comparator's "less or equal" relation; this is
  the behaviour ECMAScript guarantees for a consistent comparator.
-/

namespace Mygit

abbrev Bytes := List Nat

/-! ## Sorting by a byte-string key

The comparators in `Tree.getContent`, `Index.getAllEntries` and
`CommitService.createTreeObject` all have the shape
`(a, b) => k a < k b ? -1 : k a > k b ? 1 : 0` for a string key `k`; in the
byte model `<` on strings is the lexicographic order on `List Nat`. -/

section KeySort

variable {α : Type} (key : α → Bytes)

/-- `a` compares less-or-equal to `b` under the JS comparator on `key`. -/
def keyLe (a b : α) : Prop := key a ≤ key b

/-- Strict version of `keyLe`. -/
def keyLt (a b : α) : Prop := key a < key b

instance : DecidableRel (keyLe key) := fun _ _ => by unfold keyLe; infer_instance

instance : IsTotal α (keyLe key) := ⟨fun a b => le_total (key a) (key b)⟩

instance : IsTrans α (keyLe key) := ⟨fun _ _ _ => le_trans⟩

instance : IsAntisymm α (keyLt key) :=
  ⟨fun _ _ h h' => absurd h' (lt_asymm h)⟩

/-- Model of `Array.prototype.sort` with the comparator on `key`: a stable
sort into `keyLe` order. -/
def jsSortBy (l : List α) : List α := l.insertionSort (keyLe key)

theorem jsSortBy_perm (l : List α) : List.Perm (jsSortBy key l) l :=
  List.perm_insertionSort _ l

theorem jsSortBy_sorted (l : List α) : List.Sorted (keyLe key) (jsSortBy key l) :=
  List.sorted_insertionSort _ l

theorem jsSortBy_of_sorted {l : List α} (h : List.Sorted (keyLe key) l) :
    jsSortBy key l = l :=
  List.Sorted.insertionSort_eq h

theorem sorted_keyLt_of_sorted_keyLe {l : List α}
    (hs : List.Sorted (keyLe key) l) (hd : l.Pairwise (fun a b => key a ≠ key b)) :
    List.Sorted (keyLt key) l := by
  induction l with
  | nil => exact List.sorted_nil
  | cons x xs ih =>
    rw [List.sorted_cons] at hs ⊢
    rw [List.pairwise_cons] at hd
    exact ⟨fun b hb => lt_of_le_of_ne (hs.1 b hb) (hd.1 b hb), ih hs.2 hd.2⟩

/-- Two permuted lists with pairwise-distinct keys have the same
`jsSortBy`-image: the sorted order is unique. -/
theorem jsSortBy_eq_of_perm {l₁ l₂ : List α} (hp : List.Perm l₁ l₂)
    (hd : l₁.Pairwise (fun a b => key a ≠ key b)) :
    jsSortBy key l₁ = jsSortBy key l₂ := by
  have hsymm : Symmetric (fun a b : α => key a ≠ key b) :=
    fun a b h he => h he.symm
  have hd₂ : l₂.Pairwise (fun a b => key a ≠ key b) :=
    (hp.pairwise_iff (fun h he => h he.symm)).1 hd
  have hd₁' : (jsSortBy key l₁).Pairwise (fun a b => key a ≠ key b) :=
    ((jsSortBy_perm key l₁).pairwise_iff (fun h he => h he.symm)).2 hd
  have hd₂' : (jsSortBy key l₂).Pairwise (fun a b => key a ≠ key b) :=
    ((jsSortBy_perm key l₂).pairwise_iff (fun h he => h he.symm)).2 hd₂
  refine List.eq_of_perm_of_sorted (r := keyLt key) ?_ ?_ ?_
  · exact ((jsSortBy_perm key l₁).trans hp).trans (jsSortBy_perm key l₂).symm
  · exact sorted_keyLt_of_sorted_keyLe key (jsSortBy_sorted key l₁) hd₁'
  · exact sorted_keyLt_of_sorted_keyLe key (jsSortBy_sorted key l₂) hd₂'

end KeySort

/-! ## Byte-level primitives: big-endian words, decimal, hex -/

/-- ASCII bytes of a Lean string literal (used for the fixed tokens of the
wire formats). -/
def ascii (s : String) : Bytes := s.data.map (fun c => c.toNat)

/-- `Buffer.writeUInt32BE`: the four big-endian bytes of `n` (callers
guarantee `n < 2^32`). -/
def u32be (n : Nat) : Bytes :=
  [n / 16777216 % 256, n / 65536 % 256, n / 256 % 256, n % 256]

/-- `Buffer.writeUInt16BE`. -/
def u16be (n : Nat) : Bytes := [n / 256 % 256, n % 256]

/-- `Buffer.readUInt32BE(pos)` on `data`. -/
def readU32 (data : Bytes) (pos : Nat) : Nat :=
  data.getD pos 0 * 16777216 + data.getD (pos + 1) 0 * 65536 +
    data.getD (pos + 2) 0 * 256 + data.getD (pos + 3) 0

/-- `Buffer.readUInt16BE(pos)` on `data`. -/
def readU16 (data : Bytes) (pos : Nat) : Nat :=
  data.getD pos 0 * 256 + data.getD (pos + 1) 0

/-- Decimal digits, fuel-indexed so that the kernel can reduce it (the fuel
is irrelevant whenever it exceeds the argument, see `natDecimalAux_irrel`). -/
def natDecimalAux : Nat → Nat → Bytes
  | 0, _ => []
  | f + 1, n =>
    if n < 10 then [48 + n]
    else natDecimalAux f (n / 10) ++ [48 + n % 10]

/-- Decimal digits of `n` (`Number.prototype.toString`). -/
def natDecimal (n : Nat) : Bytes := natDecimalAux (n + 1) n

theorem natDecimalAux_irrel : ∀ {n f g : Nat}, n < f → n < g →
    natDecimalAux f n = natDecimalAux g n := by
  intro n
  induction n using Nat.strong_induction_on with
  | _ n ih =>
    intro f g hf hg
    match f, g with
    | f + 1, g + 1 =>
      rw [natDecimalAux, natDecimalAux]
      split
      · rfl
      · rename_i hn
        have hlt : n / 10 < n := Nat.div_lt_self (by omega) (by omega)
        rw [ih (n / 10) hlt (show n / 10 < f by omega) (show n / 10 < g by omega)]

/-- The defining recurrence of `natDecimal`. -/
theorem natDecimal_unfold (n : Nat) :
    natDecimal n = if n < 10 then [48 + n] else natDecimal (n / 10) ++ [48 + n % 10] := by
  show natDecimalAux (n + 1) n = _
  rw [natDecimalAux]
  split
  · rfl
  · rename_i hn
    have hlt : n / 10 < n := Nat.div_lt_self (by omega) (by omega)
    rw [natDecimalAux_irrel hlt (Nat.lt_succ_self (n / 10))]
    rfl

def isDigitB (c : Nat) : Bool := 48 ≤ c && c ≤ 57

/-- Numeric value of a digit string. -/
def digitsVal (s : Bytes) : Nat := s.foldl (fun acc c => acc * 10 + (c - 48)) 0

/-- Bytes treated as whitespace by `parseInt` (byte-model subset of the JS
WhiteSpace/LineTerminator classes). -/
def isJsWs (c : Nat) : Bool := c == 9 || c == 10 || c == 11 || c == 12 || c == 13 || c == 32

/-- `parseInt(s, 10)`: skip whitespace, optional sign, then a maximal digit
run; `none` models `NaN`. Trailing garbage is ignored, exactly as in JS. -/
def parseIntModel (s : Bytes) : Option Int :=
  let t := s.dropWhile isJsWs
  let neg : Bool := t.head? == some 45
  let t2 := if t.head? == some 43 || t.head? == some 45 then t.tail else t
  let ds := t2.takeWhile isDigitB
  if ds = [] then none
  else some (if neg then -(digitsVal ds : Int) else (digitsVal ds : Int))

theorem natDecimal_digits (n : Nat) : ∀ c ∈ natDecimal n, isDigitB c = true := by
  induction n using Nat.strong_induction_on with
  | _ n ih =>
    intro c hc
    rw [natDecimal_unfold] at hc
    split at hc
    · simp at hc
      simp only [isDigitB, hc, Bool.and_eq_true, decide_eq_true_eq]
      omega
    · rw [List.mem_append] at hc
      rcases hc with hc | hc
      · exact ih (n / 10) (Nat.div_lt_self (by omega) (by omega)) c hc
      · simp at hc
        simp only [isDigitB, hc, Bool.and_eq_true, decide_eq_true_eq]
        omega

theorem natDecimal_ne_nil (n : Nat) : natDecimal n ≠ [] := by
  rw [natDecimal_unfold]
  split
  · simp
  · simp

theorem digitsVal_natDecimal (n : Nat) : digitsVal (natDecimal n) = n := by
  induction n using Nat.strong_induction_on with
  | _ n ih =>
    rw [natDecimal_unfold]
    split
    · simp only [digitsVal, List.foldl_cons, List.foldl_nil]
      omega
    · unfold digitsVal
      rw [List.foldl_append]
      have := ih (n / 10) (Nat.div_lt_self (by omega) (by omega))
      unfold digitsVal at this
      rw [this]
      simp
      omega

theorem parseIntModel_natDecimal (n : Nat) :
    parseIntModel (natDecimal n) = some (n : Int) := by
  have hdig := natDecimal_digits n
  have hne := natDecimal_ne_nil n
  unfold parseIntModel
  cases hnd : natDecimal n with
  | nil => exact absurd hnd hne
  | cons a r =>
    rw [hnd] at hdig
    have ha := hdig a (List.mem_cons_self a r)
    simp only [isDigitB, Bool.and_eq_true, decide_eq_true_eq] at ha
    have hws : (a :: r).dropWhile isJsWs = a :: r := by
      rw [List.dropWhile_cons]
      have : isJsWs a = false := by
        simp only [isJsWs, Bool.or_eq_false_iff, beq_eq_false_iff_ne, ne_eq]
        omega
      simp [this]
    have hneg : ((a :: r).head? == some (45 : Nat)) = false := by
      simp only [List.head?_cons, beq_eq_false_iff_ne, ne_eq, Option.some.injEq]
      omega
    have h43 : ((a :: r).head? == some (43 : Nat)) = false := by
      simp only [List.head?_cons, beq_eq_false_iff_ne, ne_eq, Option.some.injEq]
      omega
    have htake : (a :: r).takeWhile isDigitB = a :: r :=
      List.takeWhile_eq_self_iff.mpr hdig
    simp only [hws, hneg, h43, Bool.or_self, Bool.false_eq_true, if_false, htake,
      if_neg (List.cons_ne_nil a r)]
    rw [← hnd, digitsVal_natDecimal]

/-! ### Hex encoding (`Buffer.prototype.toString("hex")` / `Buffer.from(s, "hex")`) -/

/-- Lowercase hex digit for a value `< 16`. -/
def hexDigitChar (v : Nat) : Nat := if v < 10 then 48 + v else 87 + v

/-- `buf.toString("hex")`: two lowercase hex characters per byte. -/
def hexEncode (bs : Bytes) : Bytes :=
  bs.flatMap (fun b => [hexDigitChar (b / 16), hexDigitChar (b % 16)])

/-- Value of one hex character (either case), `none` if not a hex digit. -/
def hexDigitVal (c : Nat) : Option Nat :=
  if 48 ≤ c ∧ c ≤ 57 then some (c - 48)
  else if 97 ≤ c ∧ c ≤ 102 then some (c - 87)
  else if 65 ≤ c ∧ c ≤ 70 then some (c - 55)
  else none

/-- `Buffer.from(s, "hex")`: consume hex-digit pairs, stopping at the first
invalid pair or lone trailing digit. -/
def hexDecode : Bytes → Bytes
  | c1 :: c2 :: rest =>
    match hexDigitVal c1, hexDigitVal c2 with
    | some v1, some v2 => (v1 * 16 + v2) :: hexDecode rest
    | _, _ => []
  | _ => []

def isHexDigit (c : Nat) : Bool := (hexDigitVal c).isSome

/-- `String.prototype.toLowerCase` on ASCII bytes. -/
def toLowerByte (c : Nat) : Nat := if 65 ≤ c ∧ c ≤ 90 then c + 32 else c

def toLower (s : Bytes) : Bytes := s.map toLowerByte

theorem hexDigitVal_lt_16 {c v : Nat} (h : hexDigitVal c = some v) : v < 16 := by
  unfold hexDigitVal at h
  split at h
  · simp at h; omega
  · split at h
    · simp at h; omega
    · split at h
      · simp at h; omega
      · exact absurd h (by simp)

theorem hexEncode_pair {v1 v2 : Nat} (h1 : v1 < 16) (h2 : v2 < 16) :
    hexEncode [v1 * 16 + v2] = [hexDigitChar v1, hexDigitChar v2] := by
  unfold hexEncode
  have ha : (v1 * 16 + v2) / 16 = v1 := by omega
  have hb : (v1 * 16 + v2) % 16 = v2 := by omega
  simp [ha, hb]

/-- Decoding two valid hex chars then re-encoding yields their lowercase
forms. -/
theorem hexDigitChar_val {c v : Nat} (h : hexDigitVal c = some v) :
    hexDigitChar v = toLowerByte c := by
  unfold hexDigitVal at h
  unfold hexDigitChar toLowerByte
  split at h
  · simp at h
    split <;> split <;> omega
  · split at h
    · simp at h
      split <;> split <;> omega
    · split at h
      · simp at h
        split <;> split <;> omega
      · exact absurd h (by simp)

/-- A string of valid hex characters decodes and re-encodes to its lowercase
form (used for object-id round-trips). -/
theorem hexEncode_hexDecode : ∀ {s : Bytes}, (∀ c ∈ s, isHexDigit c = true) →
    s.length % 2 = 0 → hexEncode (hexDecode s) = toLower s
  | [], _, _ => rfl
  | [_], _, h2 => by simp at h2
  | c1 :: c2 :: rest, h1, h2 => by
    have hc1 : isHexDigit c1 = true := h1 c1 (by simp)
    have hc2 : isHexDigit c2 = true := h1 c2 (by simp)
    unfold isHexDigit at hc1 hc2
    rw [Option.isSome_iff_exists] at hc1 hc2
    obtain ⟨v1, hv1⟩ := hc1
    obtain ⟨v2, hv2⟩ := hc2
    rw [hexDecode]
    simp only [hv1, hv2]
    have hrest : hexEncode (hexDecode rest) = toLower rest := by
      refine hexEncode_hexDecode (fun c hc => h1 c (by simp [hc])) ?_
      simp only [List.length_cons] at h2
      omega
    unfold hexEncode toLower at hrest ⊢
    simp only [List.flatMap_cons, List.map_cons]
    rw [hrest]
    have ha : (v1 * 16 + v2) / 16 = v1 := by
      have := hexDigitVal_lt_16 hv2
      omega
    have hb : (v1 * 16 + v2) % 16 = v2 := by
      have := hexDigitVal_lt_16 hv2
      omega
    rw [ha, hb, hexDigitChar_val hv1, hexDigitChar_val hv2]
    rfl

theorem length_hexDecode : ∀ {s : Bytes}, (∀ c ∈ s, isHexDigit c = true) →
    (hexDecode s).length = s.length / 2
  | [], _ => rfl
  | [c], h => by
    simp [hexDecode]
  | c1 :: c2 :: rest, h => by
    have hc1 : isHexDigit c1 = true := h c1 (by simp)
    have hc2 : isHexDigit c2 = true := h c2 (by simp)
    unfold isHexDigit at hc1 hc2
    rw [Option.isSome_iff_exists] at hc1 hc2
    obtain ⟨v1, hv1⟩ := hc1
    obtain ⟨v2, hv2⟩ := hc2
    rw [hexDecode]
    simp only [hv1, hv2, List.length_cons]
    rw [length_hexDecode (fun c hc => h c (by simp [hc]))]
    omega

/-! ## SHA-1 (`crypto.createHash("sha1")`)

Direct embedding of the SHA-1 algorithm (FIPS 180-4) over byte lists; all
word arithmetic is `Nat` reduced mod `2^32`. -/

namespace Sha1

def wordMod : Nat := 4294967296

/-- 32-bit left rotation. -/
def rotl (k n : Nat) : Nat := ((n <<< k) % wordMod) ||| ((n % wordMod) >>> (32 - k))

/-- Eight big-endian bytes of the 64-bit message bit length. -/
def u64be (n : Nat) : Bytes :=
  [n >>> 56 % 256, n >>> 48 % 256, n >>> 40 % 256, n >>> 32 % 256,
   n >>> 24 % 256, n >>> 16 % 256, n >>> 8 % 256, n % 256]

/-- Merkle–Damgård padding: `0x80`, zeros, then the bit length, to a
multiple of 64 bytes. -/
def pad (msg : Bytes) : Bytes :=
  msg ++ 128 :: List.replicate ((64 - (msg.length + 9) % 64) % 64) 0 ++
    u64be (8 * msg.length)

/-- Split into 64-byte blocks (fuel-indexed; the initial fuel `l.length`
always suffices since each step consumes 64 bytes). -/
def toBlocksAux : Nat → Bytes → List Bytes
  | 0, _ => []
  | _, [] => []
  | f + 1, a :: rest => (a :: rest).take 64 :: toBlocksAux f ((a :: rest).drop 64)

def toBlocks (l : Bytes) : List Bytes := toBlocksAux l.length l

/-- Four consecutive big-endian bytes per 32-bit word. -/
def bytesToWords : Bytes → List Nat
  | b0 :: b1 :: b2 :: b3 :: rest =>
    (b0 * 16777216 + b1 * 65536 + b2 * 256 + b3) :: bytesToWords rest
  | _ => []

/-- Message-schedule extension, keeping the schedule in reverse order:
`acc.headD` is the most recent word `w[i-1]`. -/
def extendRev (acc : List Nat) : Nat → List Nat
  | 0 => acc
  | k + 1 =>
    extendRev
      (rotl 1 ((acc.getD 2 0 ^^^ acc.getD 7 0) ^^^ (acc.getD 13 0 ^^^ acc.getD 15 0))
        :: acc) k

/-- Round function `f` and constant `K` for round `t`. -/
def fK (t b c d : Nat) : Nat × Nat :=
  if t < 20 then ((b &&& c) ||| ((b ^^^ 4294967295) &&& d), 1518500249)
  else if t < 40 then ((b ^^^ c) ^^^ d, 1859775393)
  else if t < 60 then ((b &&& c) ||| ((b &&& d) ||| (c &&& d)), 2400959708)
  else ((b ^^^ c) ^^^ d, 3395469782)

/-- One compression round. -/
def round (st : Nat × Nat × Nat × Nat × Nat) (tw : Nat × Nat) :
    Nat × Nat × Nat × Nat × Nat :=
  let (a, b, c, d, e) := st
  let (t, w) := tw
  let (f, k) := fK t b c d
  ((rotl 5 a + f + e + k + w) % wordMod, a, rotl 30 b, c, d)

/-- Process one 64-byte block. -/
def processBlock (hs : Nat × Nat × Nat × Nat × Nat) (block : Bytes) :
    Nat × Nat × Nat × Nat × Nat :=
  let ws := bytesToWords block
  let sched := (extendRev ws.reverse 64).reverse
  let (h0, h1, h2, h3, h4) := hs
  let (a, b, c, d, e) := sched.enum.foldl round (h0, h1, h2, h3, h4)
  ((h0 + a) % wordMod, (h1 + b) % wordMod, (h2 + c) % wordMod,
   (h3 + d) % wordMod, (h4 + e) % wordMod)

/-- SHA-1 digest: 20 raw bytes (`hash.digest()`). -/
def digest (msg : Bytes) : Bytes :=
  let (h0, h1, h2, h3, h4) :=
    (toBlocks (pad msg)).foldl processBlock
      (1732584193, 4023233417, 2562383102, 271733878, 3285377520)
  u32be h0 ++ u32be h1 ++ u32be h2 ++ u32be h3 ++ u32be h4

end Sha1

/-- SHA-1 digest as raw bytes. -/
def sha1 (msg : Bytes) : Bytes := Sha1.digest msg

/-- SHA-1 digest as 40 lowercase hex characters (`digest("hex")`). -/
def sha1hex (msg : Bytes) : Bytes := hexEncode (sha1 msg)

theorem length_sha1 (msg : Bytes) : (sha1 msg).length = 20 := by
  unfold sha1 Sha1.digest
  generalize (Sha1.toBlocks (Sha1.pad msg)).foldl Sha1.processBlock
    (1732584193, 4023233417, 2562383102, 271733878, 3285377520) = hs
  obtain ⟨h0, h1, h2, h3, h4⟩ := hs
  simp [u32be]

theorem length_hexEncode (bs : Bytes) : (hexEncode bs).length = 2 * bs.length := by
  induction bs with
  | nil => rfl
  | cons b r ih =>
    unfold hexEncode at ih ⊢
    simp only [List.flatMap_cons, List.length_append, List.length_cons,
      List.length_nil, ih]
    omega

theorem length_sha1hex (msg : Bytes) : (sha1hex msg).length = 40 := by
  unfold sha1hex
  rw [length_hexEncode, length_sha1]

theorem isHexDigit_hexDigitChar {v : Nat} (hv : v < 16) :
    isHexDigit (hexDigitChar v) = true := by
  unfold isHexDigit hexDigitVal hexDigitChar
  split <;> rename_i h
  · simp only [if_pos (show 48 ≤ 48 + v ∧ 48 + v ≤ 57 by omega)]
    rfl
  · simp only [if_neg (show ¬(48 ≤ 87 + v ∧ 87 + v ≤ 57) by omega),
      if_pos (show 97 ≤ 87 + v ∧ 87 + v ≤ 102 by omega)]
    rfl

theorem hexEncode_hexDigits {bs : Bytes} (hbs : ∀ b ∈ bs, b < 256) :
    ∀ c ∈ hexEncode bs, isHexDigit c = true := by
  intro c hc
  unfold hexEncode at hc
  rw [List.mem_flatMap] at hc
  obtain ⟨b, hbmem, hb⟩ := hc
  simp only [List.mem_cons, List.mem_singleton, List.not_mem_nil, or_false] at hb
  rcases hb with hb | hb
  · rw [hb]
    exact isHexDigit_hexDigitChar (Nat.div_lt_of_lt_mul (by have := hbs b hbmem; omega))
  · rw [hb]
    exact isHexDigit_hexDigitChar (Nat.mod_lt _ (by omega))

theorem sha1_bytes_lt (msg : Bytes) : ∀ b ∈ sha1 msg, b < 256 := by
  unfold sha1 Sha1.digest
  generalize (Sha1.toBlocks (Sha1.pad msg)).foldl Sha1.processBlock
    (1732584193, 4023233417, 2562383102, 271733878, 3285377520) = hs
  obtain ⟨h0, h1, h2, h3, h4⟩ := hs
  intro b hb
  simp only [u32be, List.mem_append, List.mem_cons, List.mem_singleton,
    List.not_mem_nil, or_false] at hb
  omega

theorem sha1hex_hexDigits (msg : Bytes) : ∀ c ∈ sha1hex msg, isHexDigit c = true :=
  hexEncode_hexDigits (sha1_bytes_lt msg)

/-! ## Object codec (`gitObject.ts`, `blob.ts`, `tree.ts`, `commit.ts`)

The `GitObject` class hierarchy is a tagged union `{Blob, Tree, Commit}`.
`Date` values are modelled by their epoch milliseconds; `getTimezoneOffset`
is an uninterpreted function `tz` of the date (minutes), over which all
commit-related definitions are parametrised. -/

structure TreeEntry where
  mode : Bytes
  name : Bytes
  sha : Bytes
  deriving DecidableEq, Repr

structure GitActor where
  name : Bytes
  email : Bytes
  timestampMs : Int
  deriving DecidableEq, Repr

structure CommitData where
  tree : Bytes
  parents : List Bytes
  author : GitActor
  committer : GitActor
  message : Bytes
  deriving DecidableEq, Repr

inductive GitObject where
  | blob (content : Bytes)
  | tree (entries : List TreeEntry)
  | commit (data : CommitData)
  deriving DecidableEq, Repr

/-- Sort key of `Tree.getContent`: directories are compared as
`name + "/"` (`a.mode.startsWith("040000") ? a.name + "/" : a.name`). -/
def treeSortKey (e : TreeEntry) : Bytes :=
  if (ascii "040000").isPrefixOf e.mode then e.name ++ [47] else e.name

/-- One tree entry on the wire: `"<mode> <name>\0"` + 20 raw hash bytes. -/
def treeEntryWire (e : TreeEntry) : Bytes :=
  e.mode ++ [32] ++ e.name ++ [0] ++ hexDecode e.sha

/-- `Tree.getContent`: canonically sorted entries, concatenated. -/
def treeContent (entries : List TreeEntry) : Bytes :=
  (jsSortBy treeSortKey entries).flatMap treeEntryWire

/-- `padStart(2, "0")`. -/
def padStart2 (s : Bytes) : Bytes := List.replicate (2 - s.length) 48 ++ s

/-- `Number.prototype.toString` for a possibly negative integer. -/
def intDecimal (i : Int) : Bytes :=
  if i < 0 then 45 :: natDecimal i.natAbs else natDecimal i.natAbs

/-- `Commit.formatTimezone`: `±HHMM` from `-date.getTimezoneOffset()`. -/
def formatTimezone (tz : Int → Int) (ms : Int) : Bytes :=
  let offset : Int := - tz ms
  (if 0 ≤ offset then [43] else [45]) ++
    padStart2 (natDecimal (offset.natAbs / 60)) ++
    padStart2 (natDecimal (offset.natAbs % 60))

/-- `Math.floor(date.getTime() / 1000)`. -/
def epochSec (ms : Int) : Int := Int.fdiv ms 1000

/-- The part of an author/committer line after the `author ` prefix:
`"<name> <<email>> <epoch> <tz>"`. -/
def actorBody (tz : Int → Int) (a : GitActor) : Bytes :=
  a.name ++ ascii " <" ++ a.email ++ ascii "> " ++
    intDecimal (epochSec a.timestampMs) ++ [32] ++ formatTimezone tz a.timestampMs

/-- `Commit.getContent`: header lines, blank line, then the raw message,
joined with `"\n"`. -/
def commitContent (tz : Int → Int) (c : CommitData) : Bytes :=
  List.intercalate [10]
    ([ascii "tree " ++ c.tree] ++
      c.parents.map (fun p => ascii "parent " ++ p) ++
      [ascii "author " ++ actorBody tz c.author,
       ascii "committer " ++ actorBody tz c.committer,
       [], c.message])

/-- `getContent` of the three object kinds. -/
def getContent (tz : Int → Int) : GitObject → Bytes
  | .blob content => content
  | .tree entries => treeContent entries
  | .commit data => commitContent tz data

/-- `getType` as wire bytes. -/
def getTypeB : GitObject → Bytes
  | .blob _ => ascii "blob"
  | .tree _ => ascii "tree"
  | .commit _ => ascii "commit"

/-- `GitObject.serialize`: `"<type> <size>\0<content>"`. -/
def serializeObj (tz : Int → Int) (o : GitObject) : Bytes :=
  getTypeB o ++ [32] ++ natDecimal (getContent tz o).length ++ [0] ++ getContent tz o

/-- `GitObject.getSha`: SHA-1 of the serialized bytes, 40 lowercase hex. -/
def getShaHex (tz : Int → Int) (o : GitObject) : Bytes :=
  sha1hex (serializeObj tz o)

/-- One constructor per `throw` site of the codec. -/
inductive ObjError where
  | noNullSeparator
  | invalidHeaderFormat
  | sizeMismatch
  | unknownType
  | malformedTreeNoNull
  | malformedTreeNoSpace
  | malformedTreeShortSha
  | missingCommitField
  | invalidActorLine
  deriving DecidableEq, Repr

/-- `content.indexOf(b)` as an `Option` (`none` models `-1`). -/
def idxOf (b : Nat) : Bytes → Option Nat
  | [] => none
  | c :: rest => if c = b then some 0 else (idxOf b rest).map (fun i => i + 1)

/-- Tree payload parsing: repeatedly split `"<mode> <name>\0"` and 20 hash
bytes until the payload is exhausted (the `while (offset < content.length)`
loop of `deserializeTree`). -/
def parseTreeEntriesAux : Nat → Bytes → Except ObjError (List TreeEntry)
  | 0, _ => .ok []
  | _, [] => .ok []
  | f + 1, b :: rest =>
    let content := b :: rest
    match idxOf 0 content with
    | none => .error .malformedTreeNoNull
    | some nullIndex =>
      let modeAndName := content.take nullIndex
      match idxOf 32 modeAndName with
      | none => .error .malformedTreeNoSpace
      | some spaceIndex =>
        if nullIndex + 1 + 20 > content.length then .error .malformedTreeShortSha
        else
          match parseTreeEntriesAux f (content.drop (nullIndex + 1 + 20)) with
          | .error e => .error e
          | .ok es =>
            .ok (⟨modeAndName.take spaceIndex, modeAndName.drop (spaceIndex + 1),
              hexEncode ((content.drop (nullIndex + 1)).take 20)⟩ :: es)

def parseTreeEntries (content : Bytes) : Except ObjError (List TreeEntry) :=
  parseTreeEntriesAux content.length content

/-- Last index `i` at which `" <"` occurs in `p` with a nonempty part on
both sides: the separator chosen by the greedy `(.+) <(.+)>` groups. -/
def lastSepIdx (p : Bytes) : Option Nat :=
  ((List.range p.length).filter (fun i =>
    decide (1 ≤ i) && (p.getD i 0 == 32) && (p.getD (i + 1) 0 == 60) &&
      decide (i + 3 ≤ p.length))).getLast?

/-- `GitObject.parseActorLine`: the match of
`/^(.+) <(.+)> (\d+) ([+-]\d{4})$/` (greedy groups; `.` excludes line
terminators, which in the byte model are `\n` and `\r`).  The matched
timestamp digits give `new Date(parseInt(ts) * 1000)`. -/
def parseActorLine (s : Bytes) : Option GitActor :=
  let n := s.length
  if n < 13 then none
  else
    let tzPart := s.drop (n - 5)
    if ¬ ((tzPart.headD 0 == 43 || tzPart.headD 0 == 45) &&
          tzPart.tail.all isDigitB) = true then none
    else if ¬ (s.getD (n - 6) 0 == 32) = true then none
    else
      let core := s.take (n - 6)
      let ds := (core.reverse.takeWhile isDigitB).reverse
      if ds = [] then none
      else
        let pre := core.take (core.length - ds.length)
        if ¬ ((ascii "> ").isSuffixOf pre) = true then none
        else
          let p := pre.take (pre.length - 2)
          match lastSepIdx p with
          | none => none
          | some i =>
            let name := p.take i
            let email := p.drop (i + 2)
            if name.any (fun c => c == 10 || c == 13) then none
            else if email.any (fun c => c == 10 || c == 13) then none
            else some ⟨name, email, (digitsVal ds : Int) * 1000⟩

/-- State of `deserializeCommit`'s header-line loop. -/
structure CommitLoopSt where
  tree : Bytes
  parents : List Bytes
  author : Option GitActor
  committer : Option GitActor
  deriving Repr

/-- The header-line loop of `deserializeCommit`: scan lines until the first
empty one, dispatching on prefixes; returns the state and the message lines
(`none` when no blank line was found). -/
def commitLoop : List Bytes → CommitLoopSt →
    Except ObjError (CommitLoopSt × Option (List Bytes))
  | [], st => .ok (st, none)
  | l :: rest, st =>
    if l = [] then .ok (st, some rest)
    else if (ascii "tree ").isPrefixOf l then
      commitLoop rest { st with tree := l.drop 5 }
    else if (ascii "parent ").isPrefixOf l then
      commitLoop rest { st with parents := st.parents ++ [l.drop 7] }
    else if (ascii "author ").isPrefixOf l then
      match parseActorLine (l.drop 7) with
      | some a => commitLoop rest { st with author := some a }
      | none => .error .invalidActorLine
    else if (ascii "committer ").isPrefixOf l then
      match parseActorLine (l.drop 10) with
      | some a => commitLoop rest { st with committer := some a }
      | none => .error .invalidActorLine
    else commitLoop rest st

/-- `GitObject.deserializeCommit`. -/
def parseCommit (content : Bytes) : Except ObjError GitObject := do
  let lines := content.splitOn 10
  let (st, msgLines) ← commitLoop lines ⟨[], [], none, none⟩
  match st.author, st.committer, msgLines with
  | some a, some cm, some ml =>
    if st.tree = [] then .error .missingCommitField
    else .ok (.commit ⟨st.tree, st.parents, a, cm, List.intercalate [10] ml⟩)
  | _, _, _ => .error .missingCommitField

/-- `GitObject.deserialize`: split header/payload at the first NUL, parse
`"<type> <size>"`, check the size, dispatch on the type. -/
def deserializeObj (data : Bytes) : Except ObjError GitObject :=
  match idxOf 0 data with
  | none => .error .noNullSeparator
  | some nullIndex =>
    let header := data.take nullIndex
    let content := data.drop (nullIndex + 1)
    match idxOf 32 header with
    | none => .error .invalidHeaderFormat
    | some spaceIndex =>
      let typeB := header.take spaceIndex
      let sizeStr := header.drop (spaceIndex + 1)
      if parseIntModel sizeStr ≠ some (content.length : Int) then .error .sizeMismatch
      else if typeB = ascii "blob" then .ok (.blob content)
      else if typeB = ascii "tree" then (parseTreeEntries content).map .tree
      else if typeB = ascii "commit" then parseCommit content
      else .error .unknownType

/-! ## Round-trip infrastructure -/

theorem idxOf_append_not_mem {b : Nat} {A : Bytes} (B : Bytes) (h : ∀ c ∈ A, c ≠ b) :
    idxOf b (A ++ b :: B) = some A.length := by
  induction A with
  | nil => simp [idxOf]
  | cons a A ih =>
    have ha : a ≠ b := h a (by simp)
    show (if a = b then some 0 else (idxOf b (A ++ b :: B)).map (fun i => i + 1)) = _
    rw [if_neg ha, ih (fun c hc => h c (by simp [hc]))]
    rfl

theorem take_len_append (A B : Bytes) : (A ++ B).take A.length = A := by simp

theorem drop_len_append (A B : Bytes) : (A ++ B).drop A.length = B := by simp

theorem hexDigitVal_toLowerByte (c : Nat) : hexDigitVal (toLowerByte c) = hexDigitVal c := by
  unfold hexDigitVal toLowerByte
  split <;> rename_i h
  · rcases Nat.lt_or_ge c 71 with h' | h'
    · simp only [if_neg (by omega : ¬(48 ≤ c + 32 ∧ c + 32 ≤ 57)),
        if_pos (by omega : 97 ≤ c + 32 ∧ c + 32 ≤ 102),
        if_neg (by omega : ¬(48 ≤ c ∧ c ≤ 57)),
        if_neg (by omega : ¬(97 ≤ c ∧ c ≤ 102)),
        if_pos (by omega : 65 ≤ c ∧ c ≤ 70)]
      have : c + 32 - 87 = c - 55 := by omega
      rw [this]
    · simp only [if_neg (by omega : ¬(48 ≤ c + 32 ∧ c + 32 ≤ 57)),
        if_neg (by omega : ¬(97 ≤ c + 32 ∧ c + 32 ≤ 102)),
        if_neg (by omega : ¬(65 ≤ c + 32 ∧ c + 32 ≤ 70)),
        if_neg (by omega : ¬(48 ≤ c ∧ c ≤ 57)),
        if_neg (by omega : ¬(97 ≤ c ∧ c ≤ 102)),
        if_neg (by omega : ¬(65 ≤ c ∧ c ≤ 70))]
  · rfl

theorem hexDecode_toLower (s : Bytes) : hexDecode (toLower s) = hexDecode s := by
  match s with
  | [] => rfl
  | [c] => rfl
  | c1 :: c2 :: rest =>
    show hexDecode (toLowerByte c1 :: toLowerByte c2 :: toLower rest) = _
    rw [hexDecode, hexDecode, hexDigitVal_toLowerByte, hexDigitVal_toLowerByte]
    cases hexDigitVal c1 <;> cases hexDigitVal c2 <;>
      simp [hexDecode_toLower rest]

/-! ### Tree payload round-trip -/

/-- Validity of a tree entry for the round-trip: the mode contains neither
NUL nor space, the name contains no NUL, and the hash is 40 hex digits. -/
def ValidTreeEntry (e : TreeEntry) : Prop :=
  (∀ c ∈ e.mode, c ≠ 0 ∧ c ≠ 32) ∧ (∀ c ∈ e.name, c ≠ 0) ∧
    e.sha.length = 40 ∧ (∀ c ∈ e.sha, isHexDigit c = true)

/-- What the parser reconstructs for an entry: the hex hash is re-rendered
in lowercase. -/
def lowerEntry (e : TreeEntry) : TreeEntry := ⟨e.mode, e.name, toLower e.sha⟩

theorem length_hexDecode_sha {e : TreeEntry} (he : ValidTreeEntry e) :
    (hexDecode e.sha).length = 20 := by
  rw [length_hexDecode he.2.2.2, he.2.2.1]

theorem parseTreeEntriesAux_nil : ∀ (f : Nat), parseTreeEntriesAux f [] = .ok []
  | 0 => rfl
  | _ + 1 => rfl

theorem parseTreeEntriesAux_irrel : ∀ {f : Nat} {content : Bytes} {g : Nat},
    content.length ≤ f → content.length ≤ g →
    parseTreeEntriesAux f content = parseTreeEntriesAux g content := by
  intro f
  induction f with
  | zero =>
    intro content g hf _
    have : content = [] := List.length_eq_zero.mp (by omega)
    subst this
    rw [parseTreeEntriesAux_nil, parseTreeEntriesAux_nil]
  | succ f ih =>
    intro content g hf hg
    match content, g with
    | [], g => rw [parseTreeEntriesAux_nil, parseTreeEntriesAux_nil]
    | b :: rest, 0 => simp at hg
    | b :: rest, g + 1 =>
      rw [parseTreeEntriesAux, parseTreeEntriesAux]
      cases hidx : idxOf 0 (b :: rest) with
      | none => rfl
      | some nullIndex =>
        simp only
        cases idxOf 32 ((b :: rest).take nullIndex) with
        | none => rfl
        | some spaceIndex =>
          simp only
          split
          · rfl
          · rename_i hguard
            have hlen : ((b :: rest).drop (nullIndex + 1 + 20)).length ≤ f := by
              simp only [List.length_drop, List.length_cons] at *
              omega
            have hlen' : ((b :: rest).drop (nullIndex + 1 + 20)).length ≤ g := by
              simp only [List.length_drop, List.length_cons] at *
              omega
            rw [ih hlen hlen']

/-- One-step unfolding of `parseTreeEntries` at a serialized entry: the mode
and name are recovered exactly, the hash re-rendered in lowercase, and the
parse continues exactly after the entry's bytes. -/
theorem parseTreeEntries_wire_append (e : TreeEntry) (he : ValidTreeEntry e)
    (rest : Bytes) :
    parseTreeEntries (treeEntryWire e ++ rest) =
      (parseTreeEntries rest).map (fun es => lowerEntry e :: es) := by
  have hsha20 : (hexDecode e.sha).length = 20 := length_hexDecode_sha he
  -- the wire bytes, re-associated around the NUL separator
  have hwire : treeEntryWire e ++ rest =
      (e.mode ++ [32] ++ e.name) ++ 0 :: (hexDecode e.sha ++ rest) := by
    simp [treeEntryWire]
  set A := e.mode ++ [32] ++ e.name with hA
  have hAlen : A.length = e.mode.length + 1 + e.name.length := by
    simp only [hA, List.length_append, List.length_cons, List.length_nil]
  have hcons : ∃ b t, A ++ 0 :: (hexDecode e.sha ++ rest) = b :: t := by
    cases h : A ++ 0 :: (hexDecode e.sha ++ rest) with
    | nil => exact absurd h (by simp)
    | cons b t => exact ⟨b, t, rfl⟩
  obtain ⟨b, t, hbt⟩ := hcons
  have hlen : (b :: t).length = A.length + 1 + (hexDecode e.sha).length + rest.length := by
    rw [← hbt]
    simp only [List.length_append, List.length_cons]
    omega
  have hidx : idxOf 0 (b :: t) = some A.length := by
    rw [← hbt]
    refine idxOf_append_not_mem _ ?_
    intro c hc
    simp only [hA, List.append_assoc, List.mem_append, List.mem_cons,
      List.not_mem_nil, or_false] at hc
    rcases hc with hc | hc | hc
    · exact (he.1 c hc).1
    · omega
    · exact he.2.1 c hc
  have htake : (b :: t).take A.length = A := by
    rw [← hbt]; exact take_len_append _ _
  have hidx32 : idxOf 32 A = some e.mode.length := by
    rw [hA, List.append_assoc]
    refine idxOf_append_not_mem _ ?_
    intro c hc
    exact (he.1 c hc).2
  have hdropA : A.drop (e.mode.length + 1) = e.name := by
    rw [hA]
    rw [show e.mode ++ [32] ++ e.name = (e.mode ++ [32]) ++ e.name by simp,
      show e.mode.length + 1 = (e.mode ++ [32]).length by simp]
    exact drop_len_append _ _
  have htakeA : A.take e.mode.length = e.mode := by
    rw [hA, List.append_assoc]
    exact take_len_append _ _
  have hdropNul : (b :: t).drop (A.length + 1) = hexDecode e.sha ++ rest := by
    rw [← hbt, show A.length + 1 = (A ++ [0]).length by simp,
      show A ++ 0 :: (hexDecode e.sha ++ rest) = (A ++ [0]) ++ (hexDecode e.sha ++ rest) by simp]
    exact drop_len_append _ _
  have hshaTake : ((b :: t).drop (A.length + 1)).take 20 = hexDecode e.sha := by
    rw [hdropNul, ← hsha20]
    exact take_len_append _ _
  have hdropAll : (b :: t).drop (A.length + 1 + 20) = rest := by
    rw [← hbt, show A.length + 1 + 20 = (A ++ 0 :: hexDecode e.sha).length by simp [hsha20],
      show A ++ 0 :: (hexDecode e.sha ++ rest) = (A ++ 0 :: hexDecode e.sha) ++ rest by simp]
    exact drop_len_append _ _
  have hguard : ¬ (A.length + 1 + 20 > (b :: t).length) := by
    rw [hlen]; omega
  -- unfold one step of the parser
  rw [hwire, hbt]
  show parseTreeEntriesAux (b :: t).length (b :: t) = _
  have hlen1 : (b :: t).length = t.length + 1 := by simp
  rw [hlen1, parseTreeEntriesAux]
  rw [show t.length + 1 = (b :: t).length from hlen1.symm] at *
  simp only [hidx, htake, hidx32, hguard, if_false]
  have hrec : parseTreeEntriesAux t.length ((b :: t).drop (A.length + 1 + 20)) =
      parseTreeEntries rest := by
    rw [hdropAll]
    refine parseTreeEntriesAux_irrel ?_ (le_refl _)
    have : rest.length ≤ (b :: t).length - 1 := by rw [hlen]; omega
    simpa using this
  rw [hrec, htakeA, hdropA, hshaTake]
  rw [hexEncode_hexDecode he.2.2.2 (by rw [he.2.2.1])]
  cases parseTreeEntries rest with
  | error e' => rfl
  | ok es => rfl

theorem parseTreeEntries_flatMap (l : List TreeEntry) (h : ∀ e ∈ l, ValidTreeEntry e) :
    parseTreeEntries (l.flatMap treeEntryWire) = .ok (l.map lowerEntry) := by
  induction l with
  | nil => rfl
  | cons e es ih =>
    rw [List.flatMap_cons, parseTreeEntries_wire_append e (h e (by simp))]
    rw [ih (fun e' he' => h e' (by simp [he']))]
    rfl

/-! ### Actor line round-trip -/

/-- Round-trip validity of an actor: nonempty name and email without line
terminators, a nonnegative timestamp, a timezone offset small enough to
format as `±HHMM`, and an offset stable under truncation of the date to
whole seconds. -/
def ValidActor (tz : Int → Int) (a : GitActor) : Prop :=
  a.name ≠ [] ∧ a.email ≠ [] ∧
    (∀ c ∈ a.name, c ≠ 10 ∧ c ≠ 13) ∧ (∀ c ∈ a.email, c ≠ 10 ∧ c ≠ 13) ∧
    0 ≤ a.timestampMs ∧ (tz a.timestampMs).natAbs ≤ 5999 ∧
    tz (1000 * Int.fdiv a.timestampMs 1000) = tz a.timestampMs

theorem isPrefixOf_append_self (A B : Bytes) : A.isPrefixOf (A ++ B) = true := by
  induction A with
  | nil => simp [List.isPrefixOf]
  | cons a t ih => simpa [List.isPrefixOf] using ih

theorem isSuffixOf_append_self (A B : Bytes) : A.isSuffixOf (B ++ A) = true := by
  unfold List.isSuffixOf
  rw [List.reverse_append]
  exact isPrefixOf_append_self _ _

theorem exists_getLast?_of_ne_nil {α : Type} : ∀ {l : List α}, l ≠ [] →
    ∃ a, l.getLast? = some a
  | [], h => absurd rfl h
  | [a], _ => ⟨a, rfl⟩
  | a :: b :: t, _ => by
    obtain ⟨x, hx⟩ := exists_getLast?_of_ne_nil (l := b :: t) (by simp)
    exact ⟨x, by rw [List.getLast?_cons_cons, hx]⟩

theorem mem_of_getLast? {α : Type} : ∀ {l : List α} {a : α},
    l.getLast? = some a → a ∈ l
  | [], _, h => by simp at h
  | [x], a, h => by
    simp only [List.getLast?_singleton, Option.some.injEq] at h
    simp [h]
  | x :: y :: t, a, h => by
    rw [List.getLast?_cons_cons] at h
    exact List.mem_cons_of_mem _ (mem_of_getLast? h)

theorem natDecimal_length_le_two {n : Nat} (h : n < 100) :
    (natDecimal n).length ≤ 2 := by
  rw [natDecimal_unfold]
  split
  · simp
  · rename_i h10
    rw [natDecimal_unfold, if_pos (by omega : n / 10 < 10)]
    simp

theorem length_padStart2 {s : Bytes} (h : s.length ≤ 2) : (padStart2 s).length = 2 := by
  unfold padStart2
  simp only [List.length_append, List.length_replicate]
  omega

theorem padStart2_digits {s : Bytes} (h : ∀ c ∈ s, isDigitB c = true) :
    ∀ c ∈ padStart2 s, isDigitB c = true := by
  intro c hc
  unfold padStart2 at hc
  rw [List.mem_append] at hc
  rcases hc with hc | hc
  · rw [List.eq_of_mem_replicate hc]
    rfl
  · exact h c hc

/-- Shape of `formatTimezone` when the offset fits in two hour digits:
a sign byte followed by exactly four decimal digits. -/
theorem formatTimezone_shape (tz : Int → Int) (ms : Int)
    (h : (tz ms).natAbs ≤ 5999) :
    ∃ sg rest, formatTimezone tz ms = sg :: rest ∧ (sg = 43 ∨ sg = 45) ∧
      rest.length = 4 ∧ (∀ c ∈ rest, isDigitB c = true) := by
  have habs : (-tz ms).natAbs ≤ 5999 := by
    rw [Int.natAbs_neg]; exact h
  have hh : (-tz ms).natAbs / 60 < 100 := by omega
  have hm : (-tz ms).natAbs % 60 < 100 := by omega
  have hhd := natDecimal_digits ((-tz ms).natAbs / 60)
  have hmd := natDecimal_digits ((-tz ms).natAbs % 60)
  have hlh := length_padStart2 (natDecimal_length_le_two hh)
  have hlm := length_padStart2 (natDecimal_length_le_two hm)
  have hbody : formatTimezone tz ms =
      (if 0 ≤ -tz ms then [43] else [45]) ++
        padStart2 (natDecimal ((-tz ms).natAbs / 60)) ++
        padStart2 (natDecimal ((-tz ms).natAbs % 60)) := rfl
  have hrest : ∀ c ∈ padStart2 (natDecimal ((-tz ms).natAbs / 60)) ++
      padStart2 (natDecimal ((-tz ms).natAbs % 60)), isDigitB c = true := by
    intro c hc
    rw [List.mem_append] at hc
    rcases hc with hc | hc
    · exact padStart2_digits hhd c hc
    · exact padStart2_digits hmd c hc
  by_cases hsg : 0 ≤ -tz ms
  · refine ⟨43, padStart2 (natDecimal ((-tz ms).natAbs / 60)) ++
      padStart2 (natDecimal ((-tz ms).natAbs % 60)), ?_, Or.inl rfl, ?_, hrest⟩
    · rw [hbody, if_pos hsg]
      rfl
    · simp only [List.length_append, hlh, hlm]
  · refine ⟨45, padStart2 (natDecimal ((-tz ms).natAbs / 60)) ++
      padStart2 (natDecimal ((-tz ms).natAbs % 60)), ?_, Or.inr rfl, ?_, hrest⟩
    · rw [hbody, if_neg hsg]
      rfl
    · simp only [List.length_append, hlh, hlm]

theorem takeWhile_append_all {p : Nat → Bool} {A : Bytes} (B : Bytes)
    (h : ∀ c ∈ A, p c = true) :
    (A ++ B).takeWhile p = A ++ B.takeWhile p := by
  induction A with
  | nil => rfl
  | cons a t ih =>
    rw [List.cons_append, List.takeWhile_cons, if_pos (h a (by simp)),
      ih (fun c hc => h c (by simp [hc]))]
    rfl

theorem takeWhile_cons_false {p : Nat → Bool} {b : Nat} (B : Bytes)
    (h : p b = false) : (b :: B).takeWhile p = [] := by
  rw [List.takeWhile_cons, if_neg (by simp [h])]

/-- The separator index the greedy `(.+) <(.+)>` split selects exists and
decomposes the prefix. -/
theorem lastSepIdx_spec {p : Bytes} {i : Nat} (h : lastSepIdx p = some i) :
    1 ≤ i ∧ i + 3 ≤ p.length ∧ p.getD i 0 = 32 ∧ p.getD (i + 1) 0 = 60 := by
  unfold lastSepIdx at h
  have hmem := mem_of_getLast? h
  rw [List.mem_filter] at hmem
  have := hmem.2
  simp only [Bool.and_eq_true, decide_eq_true_eq, beq_iff_eq] at this
  exact ⟨this.1.1.1, this.2, this.1.1.2, this.1.2⟩

theorem lastSepIdx_isSome {p : Bytes} {j : Nat} (hj1 : 1 ≤ j) (hj2 : j + 3 ≤ p.length)
    (hj3 : p.getD j 0 = 32) (hj4 : p.getD (j + 1) 0 = 60) :
    ∃ i, lastSepIdx p = some i := by
  have hjmem : j ∈ (List.range p.length).filter (fun i =>
      decide (1 ≤ i) && (p.getD i 0 == 32) && (p.getD (i + 1) 0 == 60) &&
        decide (i + 3 ≤ p.length)) := by
    rw [List.mem_filter]
    constructor
    · rw [List.mem_range]; omega
    · simp only [Bool.and_eq_true, decide_eq_true_eq, beq_iff_eq]
      exact ⟨⟨⟨hj1, hj3⟩, hj4⟩, hj2⟩
  have hne : (List.range p.length).filter (fun i =>
      decide (1 ≤ i) && (p.getD i 0 == 32) && (p.getD (i + 1) 0 == 60) &&
        decide (i + 3 ≤ p.length)) ≠ [] := by
    intro hnil
    rw [hnil] at hjmem
    simp at hjmem
  exact exists_getLast?_of_ne_nil hne

/-- Decompose a byte string at a separator position established through
`getD` facts. -/
theorem decomp_at_sep {p : Bytes} {i : Nat} (h2 : i + 3 ≤ p.length)
    (h3 : p.getD i 0 = 32) (h4 : p.getD (i + 1) 0 = 60) :
    p = p.take i ++ [32, 60] ++ p.drop (i + 2) := by
  have hi : i < p.length := by omega
  have hi1 : i + 1 < p.length := by omega
  have e1 : p.drop i = p.getD i 0 :: p.drop (i + 1) := by
    rw [List.getD_eq_getElem _ _ hi]
    exact List.drop_eq_getElem_cons hi
  have e2 : p.drop (i + 1) = p.getD (i + 1) 0 :: p.drop (i + 2) := by
    rw [List.getD_eq_getElem _ _ hi1]
    exact List.drop_eq_getElem_cons hi1
  calc p = p.take i ++ p.drop i := (List.take_append_drop i p).symm
    _ = p.take i ++ [32, 60] ++ p.drop (i + 2) := by
        rw [e1, e2, h3, h4]
        simp

/-- Evaluation of `parseActorLine` on a line of the serialized shape
`<name> <<email>> <digits> <sign><4 digits>`: the match succeeds, the
timestamp digits are recovered, and the name/email groups concatenate back
to the original name/email section (the greedy groups may split a `" <"`
inside the email differently, but the separator-joined concatenation is
preserved). -/
theorem parseActorLine_shape (name email D : Bytes) (sg : Nat) (tzRest : Bytes)
    (hnm : name ≠ []) (hem : email ≠ [])
    (hnc : ∀ c ∈ name, c ≠ 10 ∧ c ≠ 13) (hec : ∀ c ∈ email, c ≠ 10 ∧ c ≠ 13)
    (hD : D ≠ []) (hDdig : ∀ c ∈ D, isDigitB c = true)
    (hsg : sg = 43 ∨ sg = 45) (hTlen : tzRest.length = 4)
    (hTdig : ∀ c ∈ tzRest, isDigitB c = true) :
    ∃ n' e',
      parseActorLine (name ++ [32, 60] ++ email ++ [62, 32] ++ D ++ [32] ++ sg :: tzRest) =
        some ⟨n', e', (digitsVal D : Int) * 1000⟩ ∧
      n' ++ [32, 60] ++ e' = name ++ [32, 60] ++ email := by
  obtain ⟨Z, hZ⟩ : ∃ Z : Bytes, Z = name ++ [32, 60] ++ email := ⟨_, rfl⟩
  obtain ⟨Y, hY⟩ : ∃ Y : Bytes, Y = Z ++ [62, 32] := ⟨_, rfl⟩
  obtain ⟨X, hX⟩ : ∃ X : Bytes, X = Y ++ D := ⟨_, rfl⟩
  have hassoc : name ++ [32, 60] ++ email ++ [62, 32] ++ D ++ [32] ++ sg :: tzRest =
      X ++ 32 :: sg :: tzRest := by
    rw [hX, hY, hZ]
    simp
  have hZlen : Z.length = name.length + 2 + email.length := by
    rw [hZ]
    simp only [List.length_append, List.length_cons, List.length_nil]
  have hXlen : X.length = Z.length + 2 + D.length := by
    rw [hX, hY]
    simp only [List.length_append, List.length_cons, List.length_nil]
  have hname1 : 1 ≤ name.length := List.length_pos.mpr hnm
  have hemail1 : 1 ≤ email.length := List.length_pos.mpr hem
  have hD1 : 1 ≤ D.length := List.length_pos.mpr hD
  have hslen : (X ++ 32 :: sg :: tzRest).length = X.length + 6 := by
    simp [hTlen]
  -- the lastSep decomposition of Z
  have hZ32 : Z.getD name.length 0 = 32 := by
    rw [hZ, List.append_assoc, List.getD_append_right _ _ _ _ (le_refl _)]
    simp
  have hZ60 : Z.getD (name.length + 1) 0 = 60 := by
    rw [hZ, List.append_assoc, List.getD_append_right _ _ _ _ (by omega)]
    have : name.length + 1 - name.length = 1 := by omega
    rw [this]
    rfl
  obtain ⟨i, hi⟩ := lastSepIdx_isSome hname1 (by omega) hZ32 hZ60
  obtain ⟨hi1, hi2, hi3, hi4⟩ := lastSepIdx_spec hi
  have hdecomp : Z = Z.take i ++ [32, 60] ++ Z.drop (i + 2) :=
    decomp_at_sep hi2 hi3 hi4
  have hZmem : ∀ c ∈ Z, c ≠ 10 ∧ c ≠ 13 := by
    intro c hc
    rw [hZ] at hc
    rcases List.mem_append.mp hc with hc' | hc'
    · rcases List.mem_append.mp hc' with hc2 | hc2
      · exact hnc c hc2
      · simp only [List.mem_cons, List.not_mem_nil, or_false] at hc2
        rcases hc2 with hc2 | hc2 <;> (subst hc2; exact ⟨by omega, by omega⟩)
    · exact hec c hc'
  have hany1 : (Z.take i).any (fun c => c == 10 || c == 13) = false := by
    rw [List.any_eq_false]
    intro c hc
    have := hZmem c ((List.take_sublist i Z).subset hc)
    simp only [Bool.or_eq_true, beq_iff_eq]
    omega
  have hany2 : (Z.drop (i + 2)).any (fun c => c == 10 || c == 13) = false := by
    rw [List.any_eq_false]
    intro c hc
    have := hZmem c ((List.drop_sublist (i + 2) Z).subset hc)
    simp only [Bool.or_eq_true, beq_iff_eq]
    omega
  refine ⟨Z.take i, Z.drop (i + 2), ?_, by rw [← hdecomp]; exact hZ⟩
  rw [hassoc]
  unfold parseActorLine
  simp only [hslen]
  rw [if_neg (by omega : ¬ (X.length + 6 < 13))]
  have hdrop5 : (X ++ 32 :: sg :: tzRest).drop (X.length + 6 - 5) = sg :: tzRest := by
    have h1 : X ++ 32 :: sg :: tzRest = (X ++ [32]) ++ sg :: tzRest := by simp
    have h2 : X.length + 6 - 5 = (X ++ [32]).length := by simp
    rw [h1, h2]
    exact drop_len_append _ _
  rw [hdrop5]
  have hguard2 : (((sg :: tzRest).headD 0 == 43 || (sg :: tzRest).headD 0 == 45) &&
      (sg :: tzRest).tail.all isDigitB) = true := by
    have htl : (sg :: tzRest).tail.all isDigitB = true :=
      List.all_eq_true.mpr (fun c hc => hTdig c hc)
    rw [Bool.and_eq_true]
    refine ⟨?_, htl⟩
    rcases hsg with hsg | hsg <;> (subst hsg; simp)
  have hc2 : ¬ ¬ ((((sg :: tzRest).headD 0 == 43 || (sg :: tzRest).headD 0 == 45) &&
      (sg :: tzRest).tail.all isDigitB) = true) := fun hh => hh hguard2
  rw [if_neg hc2]
  have hget6 : (X ++ 32 :: sg :: tzRest).getD (X.length + 6 - 6) 0 = 32 := by
    have h1 : X.length + 6 - 6 = X.length := by omega
    rw [h1, List.getD_append_right _ _ _ _ (le_refl _), Nat.sub_self]
    rfl
  have hc3 : ¬ ¬ (((X ++ 32 :: sg :: tzRest).getD (X.length + 6 - 6) 0 == 32) = true) :=
    fun hh => hh (by rw [hget6]; rfl)
  rw [if_neg hc3]
  have htake6 : (X ++ 32 :: sg :: tzRest).take (X.length + 6 - 6) = X := by
    have h1 : X.length + 6 - 6 = X.length := by omega
    rw [h1]
    exact take_len_append _ _
  rw [htake6]
  have hds : (X.reverse.takeWhile isDigitB).reverse = D := by
    rw [hX, hY, List.reverse_append, List.reverse_append]
    show (((D.reverse ++ (32 :: 62 :: Z.reverse)).takeWhile isDigitB).reverse : Bytes) = D
    rw [takeWhile_append_all (32 :: 62 :: Z.reverse)
        (fun c hc => hDdig c (List.mem_reverse.mp hc)),
      takeWhile_cons_false (62 :: Z.reverse) (by rfl)]
    simp
  rw [hds]
  rw [if_neg hD]
  have hpre : X.take (X.length - D.length) = Y := by
    have h1 : (Y ++ D).length - D.length = Y.length := by simp
    rw [hX, h1]
    exact take_len_append _ _
  rw [hpre]
  have hsuf : (ascii "> ").isSuffixOf Y = true := by
    rw [hY]
    exact isSuffixOf_append_self _ _
  have hc4 : ¬ ¬ ((ascii "> ").isSuffixOf Y = true) := fun hh => hh hsuf
  rw [if_neg hc4]
  have hp : Y.take (Y.length - 2) = Z := by
    have h1 : (Z ++ [62, 32]).length - 2 = Z.length := by simp
    rw [hY, h1]
    exact take_len_append _ _
  rw [hp, hi]
  simp only [hany1, hany2, Bool.false_eq_true, if_false]

/-- `parseActorLine` applied to the serialized actor section of a valid
actor: the epoch seconds are recovered exactly (times 1000, as
`new Date(parseInt(ts) * 1000)`), and the name/email groups concatenate back
to the original section. -/
theorem parseActorLine_actorBody (tz : Int → Int) (a : GitActor) (hv : ValidActor tz a) :
    ∃ n' e',
      parseActorLine (actorBody tz a) =
        some ⟨n', e', epochSec a.timestampMs * 1000⟩ ∧
      n' ++ [32, 60] ++ e' = a.name ++ [32, 60] ++ a.email := by
  obtain ⟨hnm, hem, hnc, hec, hms, htzb, hstab⟩ := hv
  have hi0 : 0 ≤ epochSec a.timestampMs :=
    Int.fdiv_nonneg hms (by norm_num)
  have hint : intDecimal (epochSec a.timestampMs) =
      natDecimal (epochSec a.timestampMs).toNat := by
    unfold intDecimal
    rw [if_neg (by omega)]
    have : (epochSec a.timestampMs).natAbs = (epochSec a.timestampMs).toNat := by
      omega
    rw [this]
  obtain ⟨sg, tzRest, hT, hsg, hTlen, hTdig⟩ := formatTimezone_shape tz a.timestampMs htzb
  have hbody : actorBody tz a =
      a.name ++ [32, 60] ++ a.email ++ [62, 32] ++
        natDecimal (epochSec a.timestampMs).toNat ++ [32] ++ sg :: tzRest := by
    unfold actorBody
    rw [hint, hT]
    rfl
  obtain ⟨n', e', hparse, hcat⟩ :=
    parseActorLine_shape a.name a.email (natDecimal (epochSec a.timestampMs).toNat)
      sg tzRest hnm hem hnc hec (natDecimal_ne_nil _) (natDecimal_digits _)
      hsg hTlen hTdig
  refine ⟨n', e', ?_, hcat⟩
  rw [hbody, hparse]
  rw [digitsVal_natDecimal, Int.toNat_of_nonneg hi0]

/-- `formatTimezone` depends on the date only through `tz`. -/
theorem formatTimezone_congr (tz : Int → Int) {ms1 ms2 : Int} (h : tz ms1 = tz ms2) :
    formatTimezone tz ms1 = formatTimezone tz ms2 := by
  unfold formatTimezone
  rw [h]

/-- Re-serializing the actor reconstructed by the parser reproduces the
original actor section byte for byte. -/
theorem actorBody_rebuild (tz : Int → Int) (a : GitActor) (hv : ValidActor tz a)
    {n' e' : Bytes} (hcat : n' ++ [32, 60] ++ e' = a.name ++ [32, 60] ++ a.email) :
    actorBody tz ⟨n', e', epochSec a.timestampMs * 1000⟩ = actorBody tz a := by
  obtain ⟨hnm, hem, hnc, hec, hms, htzb, hstab⟩ := hv
  have hsec : epochSec (epochSec a.timestampMs * 1000) = epochSec a.timestampMs := by
    unfold epochSec
    exact Int.mul_fdiv_cancel _ (by norm_num)
  have htzeq : tz (epochSec a.timestampMs * 1000) = tz a.timestampMs := by
    rw [mul_comm]
    exact hstab
  show n' ++ ascii " <" ++ e' ++ ascii "> " ++ intDecimal (epochSec (epochSec a.timestampMs * 1000)) ++
      [32] ++ formatTimezone tz (epochSec a.timestampMs * 1000) =
    a.name ++ ascii " <" ++ a.email ++ ascii "> " ++ intDecimal (epochSec a.timestampMs) ++
      [32] ++ formatTimezone tz a.timestampMs
  rw [hsec, formatTimezone_congr tz htzeq]
  have : ∀ R : Bytes, n' ++ ascii " <" ++ e' ++ R = a.name ++ ascii " <" ++ a.email ++ R := by
    intro R
    have h1 : n' ++ ascii " <" ++ e' ++ R = (n' ++ [32, 60] ++ e') ++ R := by
      show n' ++ [32, 60] ++ e' ++ R = _
      simp [List.append_assoc]
    have h2 : a.name ++ ascii " <" ++ a.email ++ R = (a.name ++ [32, 60] ++ a.email) ++ R := by
      show a.name ++ [32, 60] ++ a.email ++ R = _
      simp [List.append_assoc]
    rw [h1, h2, hcat]
  rw [show n' ++ ascii " <" ++ e' ++ ascii "> " ++ intDecimal (epochSec a.timestampMs) ++
        [32] ++ formatTimezone tz a.timestampMs =
      n' ++ ascii " <" ++ e' ++ (ascii "> " ++ intDecimal (epochSec a.timestampMs) ++
        [32] ++ formatTimezone tz a.timestampMs) by simp [List.append_assoc],
    show a.name ++ ascii " <" ++ a.email ++ ascii "> " ++ intDecimal (epochSec a.timestampMs) ++
        [32] ++ formatTimezone tz a.timestampMs =
      a.name ++ ascii " <" ++ a.email ++ (ascii "> " ++ intDecimal (epochSec a.timestampMs) ++
        [32] ++ formatTimezone tz a.timestampMs) by simp [List.append_assoc]]
  exact this _

/-! ### Commit content round-trip -/

theorem intercalate_cons_ne_nil {x : Bytes} {ys : List Bytes} (h : ys ≠ []) :
    List.intercalate [10] (x :: ys) = x ++ 10 :: List.intercalate [10] ys := by
  cases ys with
  | nil => exact absurd rfl h
  | cons y zs =>
    unfold List.intercalate
    rw [List.intersperse_cons_cons]
    simp

theorem splitOn_cons_sep {l : Bytes} (R : Bytes) (h : (10 : Nat) ∉ l) :
    (l ++ 10 :: R).splitOn 10 = l :: R.splitOn 10 := by
  unfold List.splitOn
  exact List.splitOnP_first (fun x => x == 10) l
    (fun x hx hbeq => h (eq_of_beq hbeq ▸ hx)) 10 (by simp) R

theorem splitOn_intercalate_append (ls : List Bytes) (m : Bytes)
    (h : ∀ l ∈ ls, (10 : Nat) ∉ l) :
    (List.intercalate [10] (ls ++ [m])).splitOn 10 = ls ++ m.splitOn 10 := by
  induction ls with
  | nil =>
    simp [List.intercalate]
  | cons l rest ih =>
    rw [List.cons_append, intercalate_cons_ne_nil (by simp),
      splitOn_cons_sep _ (h l (by simp)), ih (fun l' hl' => h l' (by simp [hl']))]
    rfl

/-- The serialized actor section contains no newline byte. -/
theorem actorBody_no_nl (tz : Int → Int) (a : GitActor) (hv : ValidActor tz a) :
    (10 : Nat) ∉ actorBody tz a := by
  obtain ⟨hnm, hem, hnc, hec, hms, htzb, hstab⟩ := hv
  obtain ⟨sg, tzRest, hT, hsg, hTlen, hTdig⟩ := formatTimezone_shape tz a.timestampMs htzb
  have hi0 : 0 ≤ epochSec a.timestampMs := Int.fdiv_nonneg hms (by norm_num)
  have hid : intDecimal (epochSec a.timestampMs) =
      natDecimal (epochSec a.timestampMs).toNat := by
    unfold intDecimal
    rw [if_neg (by omega)]
    have : (epochSec a.timestampMs).natAbs = (epochSec a.timestampMs).toNat := by
      omega
    rw [this]
  intro hmem
  unfold actorBody at hmem
  rw [hT, hid] at hmem
  rcases List.mem_append.mp hmem with h1 | h1
  · rcases List.mem_append.mp h1 with h2 | h2
    · rcases List.mem_append.mp h2 with h3 | h3
      · rcases List.mem_append.mp h3 with h4 | h4
        · rcases List.mem_append.mp h4 with h5 | h5
          · rcases List.mem_append.mp h5 with h6 | h6
            · exact (hnc 10 h6).1 rfl
            · exact absurd h6 (by decide)
          · exact (hec 10 h5).1 rfl
        · exact absurd h4 (by decide)
      · have := natDecimal_digits _ 10 h3
        exact Bool.false_ne_true ((rfl : isDigitB 10 = false).symm.trans this)
    · simp only [List.mem_cons, List.not_mem_nil, or_false] at h2
      omega
  · rcases List.mem_cons.mp h1 with h2 | h2
    · rcases hsg with hsg | hsg <;> omega
    · have := hTdig 10 h2
      exact Bool.false_ne_true ((rfl : isDigitB 10 = false).symm.trans this)

/-- Validity of a commit for the round-trip. -/
def ValidCommit (tz : Int → Int) (c : CommitData) : Prop :=
  c.tree ≠ [] ∧ (10 : Nat) ∉ c.tree ∧ (∀ p ∈ c.parents, (10 : Nat) ∉ p) ∧
    ValidActor tz c.author ∧ ValidActor tz c.committer

theorem not_eq_true_of_false {b : Bool} (h : b = false) : ¬ b = true := by
  rw [h]
  exact Bool.false_ne_true

theorem commitLoop_blank (rest : List Bytes) (st : CommitLoopSt) :
    commitLoop ([] :: rest) st = .ok (st, some rest) := rfl

theorem commitLoop_tree (t : Bytes) (rest : List Bytes) (st : CommitLoopSt) :
    commitLoop ((ascii "tree " ++ t) :: rest) st =
      commitLoop rest { st with tree := t } := by
  rw [commitLoop]
  rw [if_neg (by simp [ascii] : ¬ (ascii "tree " ++ t = []))]
  rw [if_pos (isPrefixOf_append_self (ascii "tree ") t)]
  rw [show (ascii "tree " ++ t).drop 5 = t from drop_len_append (ascii "tree ") t]

theorem commitLoop_parent (p : Bytes) (rest : List Bytes) (st : CommitLoopSt) :
    commitLoop ((ascii "parent " ++ p) :: rest) st =
      commitLoop rest { st with parents := st.parents ++ [p] } := by
  rw [commitLoop]
  rw [if_neg (by simp [ascii] : ¬ (ascii "parent " ++ p = []))]
  rw [if_neg (not_eq_true_of_false
    (rfl : (ascii "tree ").isPrefixOf (ascii "parent " ++ p) = false))]
  rw [if_pos (isPrefixOf_append_self (ascii "parent ") p)]
  rw [show (ascii "parent " ++ p).drop 7 = p from drop_len_append (ascii "parent ") p]

theorem commitLoop_author (b : Bytes) (rest : List Bytes) (st : CommitLoopSt) :
    commitLoop ((ascii "author " ++ b) :: rest) st =
      match parseActorLine b with
      | some a => commitLoop rest { st with author := some a }
      | none => .error .invalidActorLine := by
  rw [commitLoop]
  rw [if_neg (by simp [ascii] : ¬ (ascii "author " ++ b = []))]
  rw [if_neg (not_eq_true_of_false
    (rfl : (ascii "tree ").isPrefixOf (ascii "author " ++ b) = false))]
  rw [if_neg (not_eq_true_of_false
    (rfl : (ascii "parent ").isPrefixOf (ascii "author " ++ b) = false))]
  rw [if_pos (isPrefixOf_append_self (ascii "author ") b)]
  rw [show (ascii "author " ++ b).drop 7 = b from drop_len_append (ascii "author ") b]

theorem commitLoop_committer (b : Bytes) (rest : List Bytes) (st : CommitLoopSt) :
    commitLoop ((ascii "committer " ++ b) :: rest) st =
      match parseActorLine b with
      | some a => commitLoop rest { st with committer := some a }
      | none => .error .invalidActorLine := by
  rw [commitLoop]
  rw [if_neg (by simp [ascii] : ¬ (ascii "committer " ++ b = []))]
  rw [if_neg (not_eq_true_of_false
    (rfl : (ascii "tree ").isPrefixOf (ascii "committer " ++ b) = false))]
  rw [if_neg (not_eq_true_of_false
    (rfl : (ascii "parent ").isPrefixOf (ascii "committer " ++ b) = false))]
  rw [if_neg (not_eq_true_of_false
    (rfl : (ascii "author ").isPrefixOf (ascii "committer " ++ b) = false))]
  rw [if_pos (isPrefixOf_append_self (ascii "committer ") b)]
  rw [show (ascii "committer " ++ b).drop 10 = b from drop_len_append (ascii "committer ") b]

theorem commitLoop_author_some (b : Bytes) (rest : List Bytes) (st : CommitLoopSt)
    {a : GitActor} (hb : parseActorLine b = some a) :
    commitLoop ((ascii "author " ++ b) :: rest) st =
      commitLoop rest { st with author := some a } := by
  rw [commitLoop_author, hb]

theorem commitLoop_committer_some (b : Bytes) (rest : List Bytes) (st : CommitLoopSt)
    {a : GitActor} (hb : parseActorLine b = some a) :
    commitLoop ((ascii "committer " ++ b) :: rest) st =
      commitLoop rest { st with committer := some a } := by
  rw [commitLoop_committer, hb]

theorem commitLoop_parents (ps : List Bytes) (rest : List Bytes) (st : CommitLoopSt) :
    commitLoop (ps.map (fun p => ascii "parent " ++ p) ++ rest) st =
      commitLoop rest { st with parents := st.parents ++ ps } := by
  induction ps generalizing st with
  | nil => simp
  | cons p ps ih =>
    rw [List.map_cons, List.cons_append, commitLoop_parent, ih]
    simp

/-- Full evaluation of `parseCommit` on serialized commit content. -/
theorem parseCommit_commitContent (tz : Int → Int) (c : CommitData)
    (hv : ValidCommit tz c) :
    ∃ a' cm',
      parseCommit (commitContent tz c) =
        .ok (.commit ⟨c.tree, c.parents, a', cm', c.message⟩) ∧
      actorBody tz a' = actorBody tz c.author ∧
      actorBody tz cm' = actorBody tz c.committer := by
  obtain ⟨htne, htnl, hpnl, hva, hvc⟩ := hv
  obtain ⟨na, ea, hpa, hca⟩ := parseActorLine_actorBody tz c.author hva
  obtain ⟨nc, ec, hpc, hcc⟩ := parseActorLine_actorBody tz c.committer hvc
  refine ⟨⟨na, ea, epochSec c.author.timestampMs * 1000⟩,
    ⟨nc, ec, epochSec c.committer.timestampMs * 1000⟩, ?_,
    actorBody_rebuild tz c.author hva hca, actorBody_rebuild tz c.committer hvc hcc⟩
  have hshape : commitContent tz c = List.intercalate [10]
      (([ascii "tree " ++ c.tree] ++ c.parents.map (fun p => ascii "parent " ++ p) ++
        [ascii "author " ++ actorBody tz c.author,
         ascii "committer " ++ actorBody tz c.committer, []]) ++ [c.message]) := by
    unfold commitContent
    simp
  have hsplit : (commitContent tz c).splitOn 10 =
      ([ascii "tree " ++ c.tree] ++ c.parents.map (fun p => ascii "parent " ++ p) ++
        [ascii "author " ++ actorBody tz c.author,
         ascii "committer " ++ actorBody tz c.committer, []]) ++ c.message.splitOn 10 := by
    rw [hshape]
    refine splitOn_intercalate_append _ _ ?_
    intro l hl
    simp only [List.append_assoc, List.mem_append, List.mem_cons, List.mem_singleton,
      List.not_mem_nil, or_false, List.mem_map] at hl
    rcases hl with hl | hl | hl | hl | hl
    · subst hl
      intro hmem
      rcases List.mem_append.mp hmem with hm | hm
      · exact absurd hm (by decide)
      · exact htnl hm
    · obtain ⟨p, hp, hlp⟩ := hl
      subst hlp
      intro hmem
      rcases List.mem_append.mp hmem with hm | hm
      · exact absurd hm (by decide)
      · exact hpnl p hp hm
    · subst hl
      intro hmem
      rcases List.mem_append.mp hmem with hm | hm
      · exact absurd hm (by decide)
      · exact actorBody_no_nl tz c.author hva hm
    · subst hl
      intro hmem
      rcases List.mem_append.mp hmem with hm | hm
      · exact absurd hm (by decide)
      · exact actorBody_no_nl tz c.committer hvc hm
    · subst hl
      exact List.not_mem_nil 10
  have hlines : (commitContent tz c).splitOn 10 =
      (ascii "tree " ++ c.tree) ::
        (c.parents.map (fun p => ascii "parent " ++ p) ++
          ((ascii "author " ++ actorBody tz c.author) ::
            (ascii "committer " ++ actorBody tz c.committer) ::
              [] :: c.message.splitOn 10)) := by
    rw [hsplit]
    simp
  have hloop : commitLoop ((commitContent tz c).splitOn 10) ⟨[], [], none, none⟩ =
      .ok (⟨c.tree, c.parents,
        some ⟨na, ea, epochSec c.author.timestampMs * 1000⟩,
        some ⟨nc, ec, epochSec c.committer.timestampMs * 1000⟩⟩,
        some (c.message.splitOn 10)) := by
    rw [hlines, commitLoop_tree, commitLoop_parents, commitLoop_author_some _ _ _ hpa,
      commitLoop_committer_some _ _ _ hpc, commitLoop_blank]
    simp
  unfold parseCommit
  show (commitLoop ((commitContent tz c).splitOn 10) ⟨[], [], none, none⟩ >>=
    fun x =>
      match x.1.author, x.1.committer, x.2 with
      | some a, some cm, some ml =>
        if x.1.tree = [] then Except.error ObjError.missingCommitField
        else Except.ok (GitObject.commit
          ⟨x.1.tree, x.1.parents, a, cm, List.intercalate [10] ml⟩)
      | _, _, _ => Except.error ObjError.missingCommitField) = _
  rw [hloop]
  show (if c.tree = [] then Except.error ObjError.missingCommitField
    else Except.ok (GitObject.commit
      ⟨c.tree, c.parents, ⟨na, ea, epochSec c.author.timestampMs * 1000⟩,
        ⟨nc, ec, epochSec c.committer.timestampMs * 1000⟩,
        List.intercalate [10] (c.message.splitOn 10)⟩)) = _
  rw [if_neg htne, List.intercalate_splitOn]

/-! ### Full object round-trip -/

/-- Header parsing of `deserialize` on serializer output: the first NUL is
the header separator, the first space separates type and size, and the
declared size matches, so the payload is dispatched on the type. -/
theorem deserializeObj_header (typeB content : Bytes)
    (ht0 : ∀ c ∈ typeB, c ≠ 0) (ht32 : ∀ c ∈ typeB, c ≠ 32) :
    deserializeObj (typeB ++ [32] ++ natDecimal content.length ++ [0] ++ content) =
      (if typeB = ascii "blob" then .ok (.blob content)
       else if typeB = ascii "tree" then (parseTreeEntries content).map .tree
       else if typeB = ascii "commit" then parseCommit content
       else .error .unknownType) := by
  obtain ⟨A, hA⟩ : ∃ A : Bytes, A = typeB ++ [32] ++ natDecimal content.length := ⟨_, rfl⟩
  have hform : typeB ++ [32] ++ natDecimal content.length ++ [0] ++ content =
      A ++ 0 :: content := by
    rw [hA]
    simp
  have hidx0 : idxOf 0 (A ++ 0 :: content) = some A.length := by
    refine idxOf_append_not_mem _ ?_
    intro x hx
    rw [hA] at hx
    rcases List.mem_append.mp hx with hx' | hx'
    · rcases List.mem_append.mp hx' with hx2 | hx2
      · exact ht0 x hx2
      · simp only [List.mem_singleton] at hx2
        omega
    · have := natDecimal_digits _ x hx'
      simp only [isDigitB, Bool.and_eq_true, decide_eq_true_eq] at this
      omega
  have htakeA : (A ++ 0 :: content).take A.length = A := take_len_append _ _
  have hdropA : (A ++ 0 :: content).drop (A.length + 1) = content := by
    rw [show A.length + 1 = (A ++ [0]).length by simp,
      show A ++ 0 :: content = (A ++ [0]) ++ content by simp]
    exact drop_len_append _ _
  have hidx32 : idxOf 32 A = some typeB.length := by
    rw [hA, List.append_assoc]
    exact idxOf_append_not_mem _ ht32
  have htakeT : A.take typeB.length = typeB := by
    rw [hA, List.append_assoc]
    exact take_len_append _ _
  have hdropT : A.drop (typeB.length + 1) = natDecimal content.length := by
    rw [hA, show typeB ++ [32] ++ natDecimal content.length =
        (typeB ++ [32]) ++ natDecimal content.length by simp,
      show typeB.length + 1 = (typeB ++ [32]).length by simp]
    exact drop_len_append _ _
  rw [hform]
  unfold deserializeObj
  rw [hidx0]
  simp only
  rw [htakeA, hdropA, hidx32]
  simp only
  rw [htakeT, hdropT, parseIntModel_natDecimal]
  rw [if_neg (by simp)]

/-- Validity predicate for the object round-trip claim. -/
def ValidObject (tz : Int → Int) : GitObject → Prop
  | .blob _ => True
  | .tree entries => ∀ e ∈ entries, ValidTreeEntry e
  | .commit data => ValidCommit tz data

theorem getTypeB_no_0 (o : GitObject) : ∀ c ∈ getTypeB o, c ≠ 0 := by
  cases o with
  | blob content => exact (by decide : ∀ c ∈ ascii "blob", c ≠ 0)
  | tree entries => exact (by decide : ∀ c ∈ ascii "tree", c ≠ 0)
  | commit data => exact (by decide : ∀ c ∈ ascii "commit", c ≠ 0)

theorem getTypeB_no_32 (o : GitObject) : ∀ c ∈ getTypeB o, c ≠ 32 := by
  cases o with
  | blob content => exact (by decide : ∀ c ∈ ascii "blob", c ≠ 32)
  | tree entries => exact (by decide : ∀ c ∈ ascii "tree", c ≠ 32)
  | commit data => exact (by decide : ∀ c ∈ ascii "commit", c ≠ 32)

theorem treeSortKey_lowerEntry (e : TreeEntry) :
    treeSortKey (lowerEntry e) = treeSortKey e := rfl

theorem treeEntryWire_lowerEntry (e : TreeEntry) :
    treeEntryWire (lowerEntry e) = treeEntryWire e := by
  unfold treeEntryWire lowerEntry
  simp only
  rw [hexDecode_toLower]

/-- Re-serializing the parsed tree gives the original bytes. -/
theorem treeContent_reparse (es : List TreeEntry)
    (h : ∀ e ∈ es, ValidTreeEntry e) :
    parseTreeEntries (treeContent es) =
      .ok ((jsSortBy treeSortKey es).map lowerEntry) := by
  unfold treeContent
  refine parseTreeEntries_flatMap _ ?_
  intro e he
  exact h e ((jsSortBy_perm treeSortKey es).mem_iff.mp he)

theorem flatMap_wire_map_lower : ∀ l : List TreeEntry,
    (l.map lowerEntry).flatMap treeEntryWire = l.flatMap treeEntryWire
  | [] => rfl
  | e :: t => by
    rw [List.map_cons, List.flatMap_cons, List.flatMap_cons,
      treeEntryWire_lowerEntry, flatMap_wire_map_lower t]

theorem treeContent_map_lowerEntry (es : List TreeEntry) :
    treeContent ((jsSortBy treeSortKey es).map lowerEntry) = treeContent es := by
  unfold treeContent
  have hsorted : List.Sorted (keyLe treeSortKey) ((jsSortBy treeSortKey es).map lowerEntry) := by
    rw [List.Sorted, List.pairwise_map]
    exact jsSortBy_sorted treeSortKey es
  rw [jsSortBy_of_sorted treeSortKey hsorted]
  exact flatMap_wire_map_lower _

theorem serializeObj_congr {tz : Int → Int} {o1 o2 : GitObject}
    (ht : getTypeB o1 = getTypeB o2) (hc : getContent tz o1 = getContent tz o2) :
    serializeObj tz o1 = serializeObj tz o2 := by
  unfold serializeObj
  rw [ht, hc]

/-- Core round trip: deserializing a valid object's serialization succeeds
and the result re-serializes to the identical byte sequence. -/
theorem roundtrip_core (tz : Int → Int) (o : GitObject) (hv : ValidObject tz o) :
    ∃ o', deserializeObj (serializeObj tz o) = .ok o' ∧
      serializeObj tz o' = serializeObj tz o := by
  cases o with
  | blob content =>
    refine ⟨.blob content, ?_, rfl⟩
    have hh := deserializeObj_header (ascii "blob") content
      (by decide) (by decide)
    rw [if_pos rfl] at hh
    exact hh
  | tree entries =>
    refine ⟨.tree ((jsSortBy treeSortKey entries).map lowerEntry), ?_, ?_⟩
    · have hh := deserializeObj_header (ascii "tree") (treeContent entries)
        (by decide) (by decide)
      rw [if_neg (by decide), if_pos rfl, treeContent_reparse entries hv] at hh
      exact hh
    · exact serializeObj_congr rfl (treeContent_map_lowerEntry entries)
  | commit data =>
    obtain ⟨a', cm', hp, ha, hcm⟩ := parseCommit_commitContent tz data hv
    refine ⟨.commit ⟨data.tree, data.parents, a', cm', data.message⟩, ?_, ?_⟩
    · have hh := deserializeObj_header (ascii "commit") (commitContent tz data)
        (by decide) (by decide)
      rw [if_neg (by decide), if_neg (by decide), if_pos rfl, hp] at hh
      exact hh
    · refine serializeObj_congr rfl ?_
      show commitContent tz ⟨data.tree, data.parents, a', cm', data.message⟩ =
        commitContent tz data
      unfold commitContent
      simp only
      rw [ha, hcm]

/-- C1: for every valid Git object `o` (blob, tree, or commit),
`deserialize(serialize(o))` succeeds and the resulting object re-serializes
to the identical byte sequence, and therefore has the identical SHA-1
hash: `deserialize(serialize(o)).serialize() == serialize(o)`. -/
theorem C1_object_roundtrip (tz : Int → Int) (o : GitObject)
    (hv : ValidObject tz o) :
    ∃ o', deserializeObj (serializeObj tz o) = .ok o' ∧
      serializeObj tz o' = serializeObj tz o ∧
      getShaHex tz o' = getShaHex tz o := by
  obtain ⟨o', h1, h2⟩ := roundtrip_core tz o hv
  refine ⟨o', h1, h2, ?_⟩
  unfold getShaHex
  rw [h2]

/-- Witness for C1 at a concrete blob. -/
theorem C1_object_roundtrip_witness :
    ∃ o', deserializeObj (serializeObj (fun _ => 0) (.blob (ascii "hello"))) = .ok o' ∧
      serializeObj (fun _ => 0) o' = serializeObj (fun _ => 0) (.blob (ascii "hello")) ∧
      getShaHex (fun _ => 0) o' = getShaHex (fun _ => 0) (.blob (ascii "hello")) :=
  C1_object_roundtrip (fun _ => 0) (.blob (ascii "hello")) trivial

/-! ### Error taxonomy of the header (C9) -/

theorem parseTreeEntriesAux_ne_ihf : ∀ (f : Nat) (content : Bytes),
    parseTreeEntriesAux f content ≠ .error .invalidHeaderFormat := by
  intro f
  induction f with
  | zero =>
    intro content h
    match content with
    | [] => rw [parseTreeEntriesAux_nil] at h; simp at h
    | b :: rest =>
      rw [show parseTreeEntriesAux 0 (b :: rest) = .ok [] from rfl] at h
      simp at h
  | succ f ih =>
    intro content h
    match content with
    | [] => rw [parseTreeEntriesAux_nil] at h; simp at h
    | b :: rest =>
      rw [parseTreeEntriesAux] at h
      cases hidx : idxOf 0 (b :: rest) with
      | none => rw [hidx] at h; simp at h
      | some nullIndex =>
        rw [hidx] at h
        simp only at h
        cases hsp : idxOf 32 ((b :: rest).take nullIndex) with
        | none => rw [hsp] at h; simp at h
        | some spaceIndex =>
          rw [hsp] at h
          simp only at h
          split at h
          · simp at h
          · cases hrec : parseTreeEntriesAux f ((b :: rest).drop (nullIndex + 1 + 20)) with
            | error e =>
              rw [hrec] at h
              simp only [Except.error.injEq] at h
              exact ih _ (hrec.trans (by rw [h]))
            | ok es => rw [hrec] at h; simp at h

theorem commitLoop_ne_ihf : ∀ (ls : List Bytes) (st : CommitLoopSt),
    commitLoop ls st ≠ .error .invalidHeaderFormat := by
  intro ls
  induction ls with
  | nil =>
    intro st h
    simp [commitLoop] at h
  | cons l rest ih =>
    intro st h
    rw [commitLoop] at h
    split at h
    · simp at h
    · split at h
      · exact ih _ h
      · split at h
        · exact ih _ h
        · split at h
          · split at h
            · exact ih _ h
            · simp at h
          · split at h
            · split at h
              · exact ih _ h
              · simp at h
            · exact ih _ h

theorem parseCommit_ne_ihf (content : Bytes) :
    parseCommit content ≠ .error .invalidHeaderFormat := by
  intro h
  rw [show parseCommit content =
      (commitLoop (content.splitOn 10) ⟨[], [], none, none⟩).bind
        (fun x => match x.1.author, x.1.committer, x.2 with
          | some a, some cm, some ml =>
            if x.1.tree = [] then Except.error ObjError.missingCommitField
            else Except.ok (GitObject.commit
              ⟨x.1.tree, x.1.parents, a, cm, List.intercalate [10] ml⟩)
          | _, _, _ => Except.error ObjError.missingCommitField) from rfl] at h
  cases hloop : commitLoop (content.splitOn 10) ⟨[], [], none, none⟩ with
  | error e =>
    rw [hloop] at h
    simp only [Except.bind, Except.error.injEq] at h
    exact commitLoop_ne_ihf _ _ (hloop.trans (by rw [h]))
  | ok x =>
    rw [hloop] at h
    simp only [Except.bind] at h
    split at h
    · split at h <;> simp at h
    · simp at h

/-- `deserialize` reports `InvalidHeaderFormat` exactly when the pre-NUL
header contains no space; every other header-shape failure (in particular a
non-integer size field) surfaces as a different error. -/
theorem deserializeObj_ihf_iff (data : Bytes) (i : Nat)
    (hnul : idxOf 0 data = some i) :
    (deserializeObj data = .error .invalidHeaderFormat ↔
      idxOf 32 (data.take i) = none) := by
  unfold deserializeObj
  rw [hnul]
  simp only
  cases hsp : idxOf 32 (data.take i) with
  | none => simp
  | some spaceIndex =>
    simp only
    constructor
    · intro h
      split at h
      · simp at h
      · split at h
        · simp at h
        · split at h
          · cases hp : parseTreeEntries (data.drop (i + 1)) with
            | error e =>
              rw [hp] at h
              simp only [Except.map, Except.error.injEq] at h
              exact absurd (hp.trans (by rw [h]))
                (parseTreeEntriesAux_ne_ihf _ _)
            | ok es => rw [hp] at h; simp [Except.map] at h
          · split at h
            · exact absurd h (parseCommit_ne_ihf _)
            · simp at h
    · intro h
      simp at h

/-- C9 counterexample: `"blob x\0"` contains a NUL and its pre-NUL header
`"blob x"` does not match `"<type> <integer>"` (the size field is not an
integer), yet `deserialize` fails with the size-mismatch error, not with
`InvalidHeaderFormat`. -/
theorem C9_counterexample :
    (idxOf 0 (ascii "blob x" ++ [0])).isSome = true ∧
    deserializeObj (ascii "blob x" ++ [0]) = .error .sizeMismatch ∧
    deserializeObj (ascii "blob x" ++ [0]) ≠ .error .invalidHeaderFormat := by
  refine ⟨rfl, rfl, ?_⟩
  intro h
  rw [show deserializeObj (ascii "blob x" ++ [0]) = .error .sizeMismatch from rfl] at h
  exact absurd (Except.error.inj h) (by intro hh; cases hh)

/-- C9 (amended): for byte sequences containing a NUL, `deserialize` fails
with `InvalidHeaderFormat` exactly when the pre-NUL header contains no
space; a header with a space whose size field is not the decimal integer
equal to the payload length fails with the size-mismatch error instead. -/
theorem C9_invalid_header_format (data : Bytes) (i : Nat)
    (hnul : idxOf 0 data = some i) :
    (deserializeObj data = .error .invalidHeaderFormat ↔
      idxOf 32 (data.take i) = none) ∧
    (∀ j, idxOf 32 (data.take i) = some j →
      parseIntModel ((data.take i).drop (j + 1)) ≠ some ((data.drop (i + 1)).length : Int) →
      deserializeObj data = .error .sizeMismatch) := by
  constructor
  · exact deserializeObj_ihf_iff data i hnul
  · intro j hj hne
    unfold deserializeObj
    rw [hnul]
    simp only
    rw [hj]
    simp only
    rw [if_pos hne]

/-- Witness for C9 at concrete inputs exercising both conjuncts. -/
theorem C9_invalid_header_format_witness :
    idxOf 0 (ascii "blobx" ++ [0]) = some 5 ∧
    ((deserializeObj (ascii "blobx" ++ [0]) = .error .invalidHeaderFormat ↔
        idxOf 32 ((ascii "blobx" ++ [0]).take 5) = none) ∧
      (∀ j, idxOf 32 ((ascii "blobx" ++ [0]).take 5) = some j →
        parseIntModel (((ascii "blobx" ++ [0]).take 5).drop (j + 1)) ≠
          some (((ascii "blobx" ++ [0]).drop (5 + 1)).length : Int) →
        deserializeObj (ascii "blobx" ++ [0]) = .error .sizeMismatch)) :=
  ⟨rfl, C9_invalid_header_format (ascii "blobx" ++ [0]) 5 rfl⟩

/-! ## Index codec (the `Index` class of the staged implementation)

Strings are modelled as their byte lists; the entry map is modelled as its
value list in insertion order (keys are the entries' paths). -/

/-- `FileTime { seconds, nanoseconds }`. -/
structure FileTime where
  seconds : Nat
  nanoseconds : Nat
  deriving DecidableEq, Repr

/-- `IndexEntry` of `types.ts`. -/
structure IndexEntry where
  ctime : FileTime
  mtime : FileTime
  dev : Nat
  ino : Nat
  mode : Nat
  uid : Nat
  gid : Nat
  size : Nat
  objectId : Bytes
  flags : Nat
  path : Bytes
  deriving DecidableEq, Repr

/-- One constructor per `throw` site of the index codec. -/
inductive IdxError where
  | invalidObjectId
  | tooShort
  | checksumMismatch
  | insufficientData
  | headerTooShort
  | wrongSignature
  | entryTooShort
  | pathBeyondData
  deriving DecidableEq, Repr

/-- `Index.createFlags`: assume-valid bit 15, stage bits 12-13, name length
(saturated at `0xFFF`) in bits 0-11. -/
def createFlags (nameLength stage : Nat) (assumeValid : Bool) : Nat :=
  (if assumeValid then 32768 else 0) ||| ((stage % 4) <<< 12) ||| min nameLength 4095

/-- `Index.calculatePaddedSize`: fixed 62 bytes + path + NUL, aligned up to
8 bytes. -/
def calculatePaddedSize (pathLength : Nat) : Nat :=
  ((62 + pathLength + 1 + 7) / 8) * 8

/-- The 20 SHA bytes written by `serializeEntry`: `Buffer.from(id, "hex")`
copied into a zeroed region (zeros fill whatever the hex parse dropped). -/
def entryShaBytes (objectId : Bytes) : Bytes :=
  (hexDecode objectId).take 20 ++ List.replicate (20 - (hexDecode objectId).length) 0

/-- The bytes `Index.serializeEntry` produces (62 fixed bytes, the path,
NUL padding to an 8-byte boundary); numeric fields are below `2^32` at
every call site (`writeUInt32BE` would throw otherwise). -/
def serializeEntryCore (e : IndexEntry) : Bytes :=
  u32be e.ctime.seconds ++ u32be e.ctime.nanoseconds ++
  u32be e.mtime.seconds ++ u32be e.mtime.nanoseconds ++
  u32be e.dev ++ u32be e.ino ++ u32be e.mode ++ u32be e.uid ++
  u32be e.gid ++ u32be e.size ++ entryShaBytes e.objectId ++ u16be e.flags ++
  e.path ++ List.replicate (calculatePaddedSize e.path.length - (62 + e.path.length)) 0

/-- `Index.serializeEntry` with its objectId-length guard. -/
def serializeEntry (e : IndexEntry) : Except IdxError Bytes :=
  if e.objectId.length ≠ 40 then .error .invalidObjectId
  else .ok (serializeEntryCore e)

def pathKey (e : IndexEntry) : Bytes := e.path

/-- `Index.getAllEntries`: the map values sorted by the comparator
`pathA < pathB ? -1 : pathA > pathB ? 1 : 0` (binary path order). -/
def getAllEntries (entries : List IndexEntry) : List IndexEntry :=
  jsSortBy pathKey entries

/-- The `Index` class: version and the entry map (values in insertion
order, keyed by path). -/
structure Index where
  version : Nat
  entries : List IndexEntry
  deriving DecidableEq, Repr

/-- The loop of `Index.serialize` over `serializeEntry`. -/
def serializeEntries : List IndexEntry → Except IdxError Bytes
  | [] => .ok []
  | e :: rest =>
    match serializeEntry e, serializeEntries rest with
    | .ok b, .ok bs => .ok (b ++ bs)
    | .error err, _ => .error err
    | _, .error err => .error err

/-- `Index.serializeHeader`: `"DIRC"`, version, entry count. -/
def serializeHeader (idx : Index) : Bytes :=
  ascii "DIRC" ++ u32be idx.version ++ u32be idx.entries.length

/-- `Index.serialize`: header, sorted entries, SHA-1 checksum. -/
def serializeIdx (idx : Index) : Except IdxError Bytes :=
  match serializeEntries (getAllEntries idx.entries) with
  | .error err => .error err
  | .ok entryBytes =>
    let content := serializeHeader idx ++ entryBytes
    .ok (content ++ sha1 content)

/-- `Index.parseHeader` (`toString("ascii")` masks each byte to 7 bits). -/
def parseHeader (data : Bytes) : Except IdxError (Nat × Nat) :=
  if data.length < 12 then .error .headerTooShort
  else if (data.take 4).map (fun b => b % 128) ≠ ascii "DIRC" then .error .wrongSignature
  else .ok (readU32 data 4, readU32 data 8)

/-- The `while (pathEndPos < data.length && data[pathEndPos] !== 0)` scan. -/
def scanNulEnd (data : Bytes) (pos : Nat) : Nat :=
  pos + ((data.drop pos).takeWhile (fun b => b != 0)).length

/-- `Index.parseEntry`. -/
def parseEntry (data : Bytes) (offset : Nat) : Except IdxError IndexEntry :=
  if offset + 62 > data.length then .error .entryTooShort
  else
    let flags := readU16 data (offset + 60)
    let pos := offset + 62
    let nameLength := flags % 4096
    let pathEndPos := if nameLength < 4095 then pos + nameLength else scanNulEnd data pos
    if pathEndPos > data.length then .error .pathBeyondData
    else .ok
      ⟨⟨readU32 data offset, readU32 data (offset + 4)⟩,
       ⟨readU32 data (offset + 8), readU32 data (offset + 12)⟩,
       readU32 data (offset + 16), readU32 data (offset + 20),
       readU32 data (offset + 24), readU32 data (offset + 28),
       readU32 data (offset + 32), readU32 data (offset + 36),
       hexEncode ((data.drop (offset + 40)).take 20), flags,
       (data.drop pos).take (pathEndPos - pos)⟩

/-- `Map.set`: replace the value at an existing key in place, else append. -/
def mapSet (l : List IndexEntry) (e : IndexEntry) : List IndexEntry :=
  if l.any (fun x => x.path == e.path) then
    l.map (fun x => if x.path = e.path then e else x)
  else l ++ [e]

/-- The entry loop of `Index.deserialize`: `entryCount` iterations, each
advancing by the padded size computed from the parsed path's length. -/
def parseEntriesLoop : Nat → Bytes → Nat → List IndexEntry → Except IdxError (List IndexEntry)
  | 0, _, _, acc => .ok acc
  | i + 1, data, offset, acc =>
    if offset ≥ data.length then .error .insufficientData
    else
      match parseEntry data offset with
      | .error err => .error err
      | .ok entry =>
        parseEntriesLoop i data (offset + calculatePaddedSize entry.path.length)
          (mapSet acc entry)

/-- `Index.deserialize`: length check, checksum check, header, entry loop. -/
def deserializeIdx (data : Bytes) : Except IdxError Index :=
  if data.length < 12 + 20 then .error .tooShort
  else
    let contentData := data.take (data.length - 20)
    let expectedChecksum := data.drop (data.length - 20)
    if expectedChecksum ≠ sha1 contentData then .error .checksumMismatch
    else
      match parseHeader contentData with
      | .error err => .error err
      | .ok (version, entryCount) =>
        match parseEntriesLoop entryCount contentData 12 [] with
        | .error err => .error err
        | .ok entries => .ok ⟨version, entries⟩

/-- The two kinds of `fs.promises.readFile` failures `fromFile`
distinguishes. -/
inductive FsErr where
  | enoent
  | other
  deriving DecidableEq, Repr

/-- `Index.fromFile` as a function of the read's outcome: parse on success,
fresh `new Index()` (version 2, no entries) on ENOENT, rethrow otherwise. -/
def fromFile (r : Except FsErr Bytes) : Except (FsErr ⊕ IdxError) Index :=
  match r with
  | .ok data =>
    match deserializeIdx data with
    | .ok idx => .ok idx
    | .error err => .error (Sum.inr err)
  | .error .enoent => .ok ⟨2, []⟩
  | .error .other => .error (Sum.inl .other)

/-- Validity of an index entry: numeric fields in `writeUInt32BE` range, a
40-character lowercase-hex object id, flags whose low 12 bits are the
(saturated) path length and which fit `writeUInt16BE`, and a NUL-free
path. -/
def ValidIndexEntry (e : IndexEntry) : Prop :=
  e.ctime.seconds < 4294967296 ∧ e.ctime.nanoseconds < 4294967296 ∧
  e.mtime.seconds < 4294967296 ∧ e.mtime.nanoseconds < 4294967296 ∧
  e.dev < 4294967296 ∧ e.ino < 4294967296 ∧ e.mode < 4294967296 ∧
  e.uid < 4294967296 ∧ e.gid < 4294967296 ∧ e.size < 4294967296 ∧
  e.objectId.length = 40 ∧ (∀ c ∈ e.objectId, isHexDigit c = true) ∧
  toLower e.objectId = e.objectId ∧
  e.flags < 65536 ∧ e.flags % 4096 = min e.path.length 4095 ∧
  (0 : Nat) ∉ e.path

instance (e : IndexEntry) : Decidable (ValidIndexEntry e) := by
  unfold ValidIndexEntry
  infer_instance

/-! ### Index round-trip infrastructure -/

theorem getD_shift (A B : Bytes) (i : Nat) :
    (A ++ B).getD (A.length + i) 0 = B.getD i 0 := by
  rw [List.getD_append_right _ _ _ _ (by omega)]
  congr 1
  omega

theorem readU32_shift (A B : Bytes) (k : Nat) :
    readU32 (A ++ B) (A.length + k) = readU32 B k := by
  unfold readU32
  have e1 : A.length + k + 1 = A.length + (k + 1) := by omega
  have e2 : A.length + k + 2 = A.length + (k + 2) := by omega
  have e3 : A.length + k + 3 = A.length + (k + 3) := by omega
  rw [e1, e2, e3, getD_shift, getD_shift, getD_shift, getD_shift]

theorem readU32_shift0 (A B : Bytes) : readU32 (A ++ B) A.length = readU32 B 0 :=
  readU32_shift A B 0

theorem readU16_shift (A B : Bytes) (k : Nat) :
    readU16 (A ++ B) (A.length + k) = readU16 B k := by
  unfold readU16
  have e1 : A.length + k + 1 = A.length + (k + 1) := by omega
  rw [e1, getD_shift, getD_shift]

theorem readU16_shift0 (A B : Bytes) : readU16 (A ++ B) A.length = readU16 B 0 :=
  readU16_shift A B 0

theorem drop_shift (A B : Bytes) (k : Nat) :
    (A ++ B).drop (A.length + k) = B.drop k := by
  calc (A ++ B).drop (A.length + k)
      = ((A ++ B).drop A.length).drop k := by rw [List.drop_drop, Nat.add_comm]
    _ = B.drop k := by rw [drop_len_append]

theorem readU32_prefix {n : Nat} (hn : n < 4294967296) (B : Bytes) :
    readU32 (u32be n ++ B) 0 = n := by
  have h : readU32 (u32be n ++ B) 0 =
      n / 16777216 % 256 * 16777216 + n / 65536 % 256 * 65536 +
        n / 256 % 256 * 256 + n % 256 := rfl
  rw [h]
  omega

theorem readU16_prefix {n : Nat} (hn : n < 65536) (B : Bytes) :
    readU16 (u16be n ++ B) 0 = n := by
  have h : readU16 (u16be n ++ B) 0 = n / 256 % 256 * 256 + n % 256 := rfl
  rw [h]
  omega

theorem calculatePaddedSize_ge (n : Nat) : 62 + n + 1 ≤ calculatePaddedSize n := by
  unfold calculatePaddedSize
  omega

theorem entryShaBytes_eq {oid : Bytes} (hlen : oid.length = 40)
    (hhex : ∀ c ∈ oid, isHexDigit c = true) :
    entryShaBytes oid = hexDecode oid := by
  have h20 : (hexDecode oid).length = 20 := by rw [length_hexDecode hhex, hlen]
  unfold entryShaBytes
  rw [h20, List.take_of_length_le (le_of_eq h20)]
  simp

theorem length_entryShaBytes {oid : Bytes} (hlen : oid.length = 40)
    (hhex : ∀ c ∈ oid, isHexDigit c = true) :
    (entryShaBytes oid).length = 20 := by
  rw [entryShaBytes_eq hlen hhex, length_hexDecode hhex, hlen]

theorem length_serializeEntryCore {e : IndexEntry} (hlen : e.objectId.length = 40)
    (hhex : ∀ c ∈ e.objectId, isHexDigit c = true) :
    (serializeEntryCore e).length = calculatePaddedSize e.path.length := by
  have := calculatePaddedSize_ge e.path.length
  unfold serializeEntryCore
  simp [u32be, u16be, length_entryShaBytes hlen hhex]
  omega

theorem readU32_at {A B : Bytes} {n m : Nat} (h : A.length = n) (hm : m < 4294967296) :
    readU32 (A ++ (u32be m ++ B)) n = m := by
  rw [← h, readU32_shift0]
  exact readU32_prefix hm B

theorem readU16_at {A B : Bytes} {n m : Nat} (h : A.length = n) (hm : m < 65536) :
    readU16 (A ++ (u16be m ++ B)) n = m := by
  rw [← h, readU16_shift0]
  exact readU16_prefix hm B

theorem drop_of_length_eq {A B : Bytes} {n : Nat} (h : A.length = n) :
    (A ++ B).drop n = B := by
  rw [← h]
  exact drop_len_append A B

theorem take_of_length_eq {A B : Bytes} {n : Nat} (h : A.length = n) :
    (A ++ B).take n = A := by
  rw [← h]
  exact take_len_append A B

set_option maxHeartbeats 1600000 in
/-- `parseEntry` at the start of a serialized valid entry recovers the
entry exactly, whatever precedes and follows it. -/
theorem parseEntry_at (A R : Bytes) (e : IndexEntry) (hv : ValidIndexEntry e) :
    parseEntry (A ++ (serializeEntryCore e ++ R)) A.length = .ok e := by
  obtain ⟨h1, h2, h3, h4, h5, h6, h7, h8, h9, h10, hlen, hhex, hlow, hf16, hfl, hnp⟩ := hv
  have hcorelen : (serializeEntryCore e).length = calculatePaddedSize e.path.length :=
    length_serializeEntryCore hlen hhex
  have hpadge := calculatePaddedSize_ge e.path.length
  have hguard : ¬ (A.length + 62 > (A ++ (serializeEntryCore e ++ R)).length) := by
    simp only [List.length_append]
    omega
  have hguard2 : ¬ (A.length + 62 + e.path.length > (A ++ (serializeEntryCore e ++ R)).length) := by
    simp only [List.length_append]
    omega
  have hf0 : readU32 (serializeEntryCore e ++ R) 0 = e.ctime.seconds := by
    rw [show serializeEntryCore e ++ R = u32be e.ctime.seconds ++ (u32be e.ctime.nanoseconds ++ (u32be e.mtime.seconds ++ (u32be e.mtime.nanoseconds ++ (u32be e.dev ++ (u32be e.ino ++ (u32be e.mode ++ (u32be e.uid ++ (u32be e.gid ++ (u32be e.size ++ (entryShaBytes e.objectId ++ (u16be e.flags ++ (e.path ++ (List.replicate (calculatePaddedSize e.path.length - (62 + e.path.length)) 0 ++ (R)))))))))))))) from by
      simp [serializeEntryCore]]
    exact readU32_prefix h1 _
  have hf1 : readU32 (serializeEntryCore e ++ R) 4 = e.ctime.nanoseconds := by
    rw [show serializeEntryCore e ++ R = (u32be e.ctime.seconds) ++ (u32be e.ctime.nanoseconds ++ (u32be e.mtime.seconds ++ (u32be e.mtime.nanoseconds ++ (u32be e.dev ++ (u32be e.ino ++ (u32be e.mode ++ (u32be e.uid ++ (u32be e.gid ++ (u32be e.size ++ (entryShaBytes e.objectId ++ (u16be e.flags ++ (e.path ++ (List.replicate (calculatePaddedSize e.path.length - (62 + e.path.length)) 0 ++ (R)))))))))))))) from by
      simp [serializeEntryCore]]
    refine readU32_at ?_ h2
    rfl
  have hf2 : readU32 (serializeEntryCore e ++ R) 8 = e.mtime.seconds := by
    rw [show serializeEntryCore e ++ R = (u32be e.ctime.seconds ++ u32be e.ctime.nanoseconds) ++ (u32be e.mtime.seconds ++ (u32be e.mtime.nanoseconds ++ (u32be e.dev ++ (u32be e.ino ++ (u32be e.mode ++ (u32be e.uid ++ (u32be e.gid ++ (u32be e.size ++ (entryShaBytes e.objectId ++ (u16be e.flags ++ (e.path ++ (List.replicate (calculatePaddedSize e.path.length - (62 + e.path.length)) 0 ++ (R))))))))))))) from by
      simp [serializeEntryCore]]
    refine readU32_at ?_ h3
    rfl
  have hf3 : readU32 (serializeEntryCore e ++ R) 12 = e.mtime.nanoseconds := by
    rw [show serializeEntryCore e ++ R = (u32be e.ctime.seconds ++ u32be e.ctime.nanoseconds ++ u32be e.mtime.seconds) ++ (u32be e.mtime.nanoseconds ++ (u32be e.dev ++ (u32be e.ino ++ (u32be e.mode ++ (u32be e.uid ++ (u32be e.gid ++ (u32be e.size ++ (entryShaBytes e.objectId ++ (u16be e.flags ++ (e.path ++ (List.replicate (calculatePaddedSize e.path.length - (62 + e.path.length)) 0 ++ (R)))))))))))) from by
      simp [serializeEntryCore]]
    refine readU32_at ?_ h4
    rfl
  have hf4 : readU32 (serializeEntryCore e ++ R) 16 = e.dev := by
    rw [show serializeEntryCore e ++ R = (u32be e.ctime.seconds ++ u32be e.ctime.nanoseconds ++ u32be e.mtime.seconds ++ u32be e.mtime.nanoseconds) ++ (u32be e.dev ++ (u32be e.ino ++ (u32be e.mode ++ (u32be e.uid ++ (u32be e.gid ++ (u32be e.size ++ (entryShaBytes e.objectId ++ (u16be e.flags ++ (e.path ++ (List.replicate (calculatePaddedSize e.path.length - (62 + e.path.length)) 0 ++ (R))))))))))) from by
      simp [serializeEntryCore]]
    refine readU32_at ?_ h5
    rfl
  have hf5 : readU32 (serializeEntryCore e ++ R) 20 = e.ino := by
    rw [show serializeEntryCore e ++ R = (u32be e.ctime.seconds ++ u32be e.ctime.nanoseconds ++ u32be e.mtime.seconds ++ u32be e.mtime.nanoseconds ++ u32be e.dev) ++ (u32be e.ino ++ (u32be e.mode ++ (u32be e.uid ++ (u32be e.gid ++ (u32be e.size ++ (entryShaBytes e.objectId ++ (u16be e.flags ++ (e.path ++ (List.replicate (calculatePaddedSize e.path.length - (62 + e.path.length)) 0 ++ (R)))))))))) from by
      simp [serializeEntryCore]]
    refine readU32_at ?_ h6
    rfl
  have hf6 : readU32 (serializeEntryCore e ++ R) 24 = e.mode := by
    rw [show serializeEntryCore e ++ R = (u32be e.ctime.seconds ++ u32be e.ctime.nanoseconds ++ u32be e.mtime.seconds ++ u32be e.mtime.nanoseconds ++ u32be e.dev ++ u32be e.ino) ++ (u32be e.mode ++ (u32be e.uid ++ (u32be e.gid ++ (u32be e.size ++ (entryShaBytes e.objectId ++ (u16be e.flags ++ (e.path ++ (List.replicate (calculatePaddedSize e.path.length - (62 + e.path.length)) 0 ++ (R))))))))) from by
      simp [serializeEntryCore]]
    refine readU32_at ?_ h7
    rfl
  have hf7 : readU32 (serializeEntryCore e ++ R) 28 = e.uid := by
    rw [show serializeEntryCore e ++ R = (u32be e.ctime.seconds ++ u32be e.ctime.nanoseconds ++ u32be e.mtime.seconds ++ u32be e.mtime.nanoseconds ++ u32be e.dev ++ u32be e.ino ++ u32be e.mode) ++ (u32be e.uid ++ (u32be e.gid ++ (u32be e.size ++ (entryShaBytes e.objectId ++ (u16be e.flags ++ (e.path ++ (List.replicate (calculatePaddedSize e.path.length - (62 + e.path.length)) 0 ++ (R)))))))) from by
      simp [serializeEntryCore]]
    refine readU32_at ?_ h8
    rfl
  have hf8 : readU32 (serializeEntryCore e ++ R) 32 = e.gid := by
    rw [show serializeEntryCore e ++ R = (u32be e.ctime.seconds ++ u32be e.ctime.nanoseconds ++ u32be e.mtime.seconds ++ u32be e.mtime.nanoseconds ++ u32be e.dev ++ u32be e.ino ++ u32be e.mode ++ u32be e.uid) ++ (u32be e.gid ++ (u32be e.size ++ (entryShaBytes e.objectId ++ (u16be e.flags ++ (e.path ++ (List.replicate (calculatePaddedSize e.path.length - (62 + e.path.length)) 0 ++ (R))))))) from by
      simp [serializeEntryCore]]
    refine readU32_at ?_ h9
    rfl
  have hf9 : readU32 (serializeEntryCore e ++ R) 36 = e.size := by
    rw [show serializeEntryCore e ++ R = (u32be e.ctime.seconds ++ u32be e.ctime.nanoseconds ++ u32be e.mtime.seconds ++ u32be e.mtime.nanoseconds ++ u32be e.dev ++ u32be e.ino ++ u32be e.mode ++ u32be e.uid ++ u32be e.gid) ++ (u32be e.size ++ (entryShaBytes e.objectId ++ (u16be e.flags ++ (e.path ++ (List.replicate (calculatePaddedSize e.path.length - (62 + e.path.length)) 0 ++ (R)))))) from by
      simp [serializeEntryCore]]
    refine readU32_at ?_ h10
    rfl
  have hshaF : hexEncode (((serializeEntryCore e ++ R).drop 40).take 20) = e.objectId := by
    rw [show serializeEntryCore e ++ R = (u32be e.ctime.seconds ++ u32be e.ctime.nanoseconds ++ u32be e.mtime.seconds ++ u32be e.mtime.nanoseconds ++ u32be e.dev ++ u32be e.ino ++ u32be e.mode ++ u32be e.uid ++ u32be e.gid ++ u32be e.size) ++ (entryShaBytes e.objectId ++ (u16be e.flags ++ (e.path ++ (List.replicate (calculatePaddedSize e.path.length - (62 + e.path.length)) 0 ++ (R))))) from by
      simp [serializeEntryCore]]
    have h40 : (u32be e.ctime.seconds ++ u32be e.ctime.nanoseconds ++ u32be e.mtime.seconds ++ u32be e.mtime.nanoseconds ++ u32be e.dev ++ u32be e.ino ++ u32be e.mode ++ u32be e.uid ++ u32be e.gid ++ u32be e.size : Bytes).length = 40 := rfl
    rw [drop_of_length_eq h40]
    rw [entryShaBytes_eq hlen hhex]
    have h20 : (hexDecode e.objectId).length = 20 := by rw [length_hexDecode hhex, hlen]
    rw [take_of_length_eq h20]
    rw [hexEncode_hexDecode hhex (by rw [hlen])]
    exact hlow
  have hP60 : ((u32be e.ctime.seconds ++ u32be e.ctime.nanoseconds ++ u32be e.mtime.seconds ++ u32be e.mtime.nanoseconds ++ u32be e.dev ++ u32be e.ino ++ u32be e.mode ++ u32be e.uid ++ u32be e.gid ++ u32be e.size ++ entryShaBytes e.objectId) : Bytes).length = 60 := by
    simp [u32be, length_entryShaBytes hlen hhex]
  have hflg : readU16 (serializeEntryCore e ++ R) 60 = e.flags := by
    rw [show serializeEntryCore e ++ R = (u32be e.ctime.seconds ++ u32be e.ctime.nanoseconds ++ u32be e.mtime.seconds ++ u32be e.mtime.nanoseconds ++ u32be e.dev ++ u32be e.ino ++ u32be e.mode ++ u32be e.uid ++ u32be e.gid ++ u32be e.size ++ entryShaBytes e.objectId) ++ (u16be e.flags ++ (e.path ++ (List.replicate (calculatePaddedSize e.path.length - (62 + e.path.length)) 0 ++ (R)))) from by
      simp [serializeEntryCore]]
    exact readU16_at hP60 hf16
  have hP62 : ((u32be e.ctime.seconds ++ u32be e.ctime.nanoseconds ++ u32be e.mtime.seconds ++ u32be e.mtime.nanoseconds ++ u32be e.dev ++ u32be e.ino ++ u32be e.mode ++ u32be e.uid ++ u32be e.gid ++ u32be e.size ++ entryShaBytes e.objectId ++ u16be e.flags) : Bytes).length = 62 := by
    simp [u32be, u16be, length_entryShaBytes hlen hhex]
  have hdrop62 : (serializeEntryCore e ++ R).drop 62 =
      e.path ++ (List.replicate (calculatePaddedSize e.path.length - (62 + e.path.length)) 0 ++ R) := by
    rw [show serializeEntryCore e ++ R = (u32be e.ctime.seconds ++ u32be e.ctime.nanoseconds ++ u32be e.mtime.seconds ++ u32be e.mtime.nanoseconds ++ u32be e.dev ++ u32be e.ino ++ u32be e.mode ++ u32be e.uid ++ u32be e.gid ++ u32be e.size ++ entryShaBytes e.objectId ++ u16be e.flags) ++ (e.path ++ (List.replicate (calculatePaddedSize e.path.length - (62 + e.path.length)) 0 ++ R)) from by
      simp [serializeEntryCore]]
    exact drop_of_length_eq hP62
  unfold parseEntry
  rw [if_neg hguard]
  simp only
  rw [readU16_shift A _ 60, hflg, hfl]
  by_cases hlc : e.path.length < 4095
  · rw [Nat.min_eq_left (by omega : e.path.length ≤ 4095)]
    rw [if_pos hlc, if_neg hguard2]
    rw [readU32_shift0 A _, readU32_shift A _ 4, readU32_shift A _ 8, readU32_shift A _ 12,
      readU32_shift A _ 16, readU32_shift A _ 20, readU32_shift A _ 24, readU32_shift A _ 28,
      readU32_shift A _ 32, readU32_shift A _ 36]
    rw [hf0, hf1, hf2, hf3, hf4, hf5, hf6, hf7, hf8, hf9]
    rw [drop_shift A _ 40, hshaF]
    rw [show A.length + 62 + e.path.length - (A.length + 62) = e.path.length from by omega]
    rw [drop_shift A _ 62, hdrop62, take_len_append]
  · rw [Nat.min_eq_right (by omega : 4095 ≤ e.path.length)]
    rw [if_neg (lt_irrefl 4095)]
    have hscan : scanNulEnd (A ++ (serializeEntryCore e ++ R)) (A.length + 62) =
        A.length + 62 + e.path.length := by
      unfold scanNulEnd
      rw [drop_shift A _ 62, hdrop62]
      rw [takeWhile_append_all _ (show ∀ c ∈ e.path, (c != 0) = true from
        fun c hc => bne_iff_ne.mpr (fun h0 => hnp (h0 ▸ hc)))]
      rw [show calculatePaddedSize e.path.length - (62 + e.path.length) =
          (calculatePaddedSize e.path.length - (62 + e.path.length) - 1) + 1 from by omega]
      rw [List.replicate_succ, List.cons_append]
      rw [takeWhile_cons_false _ (by decide)]
      simp
    rw [hscan, if_neg hguard2]
    rw [readU32_shift0 A _, readU32_shift A _ 4, readU32_shift A _ 8, readU32_shift A _ 12,
      readU32_shift A _ 16, readU32_shift A _ 20, readU32_shift A _ 24, readU32_shift A _ 28,
      readU32_shift A _ 32, readU32_shift A _ 36]
    rw [hf0, hf1, hf2, hf3, hf4, hf5, hf6, hf7, hf8, hf9]
    rw [drop_shift A _ 40, hshaF]
    rw [show A.length + 62 + e.path.length - (A.length + 62) = e.path.length from by omega]
    rw [drop_shift A _ 62, hdrop62, take_len_append]

theorem mapSet_append {acc : List IndexEntry} {e : IndexEntry}
    (h : ∀ a ∈ acc, a.path ≠ e.path) : mapSet acc e = acc ++ [e] := by
  have hnc : ¬ (acc.any (fun x => x.path == e.path) = true) := by
    rw [List.any_eq_true]
    rintro ⟨a, ha, heq⟩
    exact h a ha (by simpa using heq)
  unfold mapSet
  rw [if_neg hnc]

theorem serializeEntries_ok : ∀ {l : List IndexEntry},
    (∀ x ∈ l, x.objectId.length = 40) →
    serializeEntries l = .ok (l.flatMap serializeEntryCore)
  | [], _ => rfl
  | e :: rest, h => by
    rw [serializeEntries]
    rw [show serializeEntry e = .ok (serializeEntryCore e) from by
      unfold serializeEntry
      rw [if_neg (by simp [h e (List.mem_cons_self e rest)])]]
    rw [serializeEntries_ok (fun x hx => h x (List.mem_cons_of_mem e hx))]
    rfl

/-- The entry loop of `deserialize` over a run of serialized valid entries
with pairwise-distinct paths appends them to the accumulator in order. -/
theorem parseEntriesLoop_at : ∀ (es : List IndexEntry) (A R : Bytes) (acc : List IndexEntry),
    (∀ x ∈ es, ValidIndexEntry x) →
    List.Pairwise (fun a b => a.path ≠ b.path) (acc ++ es) →
    parseEntriesLoop es.length (A ++ (es.flatMap serializeEntryCore ++ R)) A.length acc =
      .ok (acc ++ es) := by
  intro es
  induction es with
  | nil =>
    intro A R acc _ _
    simp [parseEntriesLoop]
  | cons e rest ih =>
    intro A R acc hval hpair
    have hve : ValidIndexEntry e := hval e (List.mem_cons_self e rest)
    obtain ⟨hq1, hq2, hq3, hq4, hq5, hq6, hq7, hq8, hq9, hq10, hlen, hhex, hrest⟩ := hve
    have hcl : (serializeEntryCore e).length = calculatePaddedSize e.path.length :=
      length_serializeEntryCore hlen hhex
    have hpadge := calculatePaddedSize_ge e.path.length
    rw [List.pairwise_append] at hpair
    obtain ⟨hp1, hp2, hp12⟩ := hpair
    have haccdist : ∀ a ∈ acc, a.path ≠ e.path :=
      fun a ha => hp12 a ha e (List.mem_cons_self e rest)
    have hdata : A ++ ((e :: rest).flatMap serializeEntryCore ++ R) =
        A ++ (serializeEntryCore e ++ (rest.flatMap serializeEntryCore ++ R)) := by
      simp
    rw [hdata]
    show parseEntriesLoop (rest.length + 1)
      (A ++ (serializeEntryCore e ++ (rest.flatMap serializeEntryCore ++ R))) A.length acc = _
    rw [parseEntriesLoop]
    rw [if_neg (show ¬ (A.length ≥
        (A ++ (serializeEntryCore e ++ (rest.flatMap serializeEntryCore ++ R))).length) from by
      simp only [List.length_append]
      omega)]
    rw [parseEntry_at A (rest.flatMap serializeEntryCore ++ R) e
      ⟨hq1, hq2, hq3, hq4, hq5, hq6, hq7, hq8, hq9, hq10, hlen, hhex, hrest⟩]
    simp only
    rw [mapSet_append haccdist]
    rw [show A ++ (serializeEntryCore e ++ (rest.flatMap serializeEntryCore ++ R)) =
        (A ++ serializeEntryCore e) ++ (rest.flatMap serializeEntryCore ++ R) from by simp]
    rw [show A.length + calculatePaddedSize e.path.length =
        (A ++ serializeEntryCore e).length from by simp [hcl]]
    have hpair2 : List.Pairwise (fun a b => a.path ≠ b.path) ((acc ++ [e]) ++ rest) := by
      rw [show (acc ++ [e]) ++ rest = acc ++ e :: rest from by simp]
      rw [List.pairwise_append]
      exact ⟨hp1, hp2, hp12⟩
    rw [ih (A ++ serializeEntryCore e) R (acc ++ [e])
      (fun x hx => hval x (List.mem_cons_of_mem e hx)) hpair2]
    simp

theorem getAllEntries_perm (l : List IndexEntry) : List.Perm (getAllEntries l) l :=
  jsSortBy_perm pathKey l

/-- `parseHeader` on serializer output. -/
theorem parseHeader_at (v c : Nat) (F : Bytes) (hv : v < 4294967296)
    (hc : c < 4294967296) :
    parseHeader ((ascii "DIRC" ++ u32be v ++ u32be c) ++ F) = .ok (v, c) := by
  have hC' : (ascii "DIRC" ++ u32be v ++ u32be c) ++ F =
      ascii "DIRC" ++ (u32be v ++ (u32be c ++ F)) := by simp
  have hsig : ((((ascii "DIRC" ++ u32be v ++ u32be c) ++ F).take 4).map (fun b => b % 128)) =
      ascii "DIRC" := by
    rw [hC', take_of_length_eq (show (ascii "DIRC").length = 4 from rfl)]
    rfl
  have hv4 : readU32 ((ascii "DIRC" ++ u32be v ++ u32be c) ++ F) 4 = v := by
    rw [hC']
    refine readU32_at ?_ hv
    rfl
  have hc8 : readU32 ((ascii "DIRC" ++ u32be v ++ u32be c) ++ F) 8 = c := by
    rw [show (ascii "DIRC" ++ u32be v ++ u32be c) ++ F =
        (ascii "DIRC" ++ u32be v) ++ (u32be c ++ F) from by simp]
    refine readU32_at ?_ hc
    rfl
  unfold parseHeader
  rw [if_neg (show ¬ (((ascii "DIRC" ++ u32be v ++ u32be c) ++ F).length < 12) from by
    simp [u32be, ascii])]
  rw [if_neg (show ¬ ((((ascii "DIRC" ++ u32be v ++ u32be c) ++ F).take 4).map
      (fun b => b % 128) ≠ ascii "DIRC") from fun hne => hne hsig)]
  rw [hv4, hc8]

/-- `Index.deserialize` on `Index.serialize` output: the checksum verifies,
the header yields the version and count, and the loop returns the entries
in sorted order. -/
theorem deserializeIdx_serializeIdx (v : Nat) (E : List IndexEntry)
    (hv : v < 4294967296) (hcnt : E.length < 4294967296)
    (hval : ∀ x ∈ E, ValidIndexEntry x)
    (hdist : List.Pairwise (fun a b => a.path ≠ b.path) E) :
    ∃ bs, serializeIdx ⟨v, E⟩ = .ok bs ∧
      deserializeIdx bs = .ok ⟨v, getAllEntries E⟩ := by
  have hvalS : ∀ x ∈ getAllEntries E, ValidIndexEntry x :=
    fun x hx => hval x ((jsSortBy_perm pathKey E).mem_iff.mp hx)
  have hser : serializeEntries (getAllEntries E) =
      .ok ((getAllEntries E).flatMap serializeEntryCore) :=
    serializeEntries_ok (fun x hx => (hvalS x hx).2.2.2.2.2.2.2.2.2.2.1)
  obtain ⟨C, hC⟩ : ∃ C, C = (ascii "DIRC" ++ u32be v ++ u32be E.length) ++
      (getAllEntries E).flatMap serializeEntryCore := ⟨_, rfl⟩
  have hlenC : C.length = 12 + ((getAllEntries E).flatMap serializeEntryCore).length := by
    rw [hC]
    simp [u32be, ascii]
    omega
  refine ⟨C ++ sha1 C, ?_, ?_⟩
  · show ((match serializeEntries (getAllEntries E) with
      | Except.error err => Except.error err
      | Except.ok entryBytes =>
        Except.ok (((ascii "DIRC" ++ u32be v ++ u32be E.length) ++ entryBytes) ++
          sha1 ((ascii "DIRC" ++ u32be v ++ u32be E.length) ++ entryBytes))) :
      Except IdxError Bytes) = _
    rw [hser, hC]
  · unfold deserializeIdx
    rw [if_neg (show ¬ ((C ++ sha1 C).length < 12 + 20) from by
      simp only [List.length_append, length_sha1]
      omega)]
    simp only
    rw [show (C ++ sha1 C).length - 20 = C.length from by
      simp [List.length_append, length_sha1]]
    rw [take_len_append, drop_len_append]
    rw [if_neg (show ¬ (sha1 C ≠ sha1 C) from by simp)]
    rw [show parseHeader C = .ok (v, E.length) from by
      rw [hC]
      exact parseHeader_at v E.length _ hv hcnt]
    simp only
    have hloop := parseEntriesLoop_at (getAllEntries E)
      (ascii "DIRC" ++ u32be v ++ u32be E.length) [] []
      hvalS
      (by
        show List.Pairwise (fun a b => a.path ≠ b.path) ([] ++ getAllEntries E)
        rw [List.nil_append]
        exact ((jsSortBy_perm pathKey E).pairwise_iff (fun h he => h he.symm)).2 hdist)
    rw [show parseEntriesLoop E.length C 12 [] = .ok ([] ++ getAllEntries E) from by
      rw [hC, show (12 : Nat) = ((ascii "DIRC" ++ u32be v ++ u32be E.length : Bytes)).length from rfl]
      rw [show (ascii "DIRC" ++ u32be v ++ u32be E.length) ++
          (getAllEntries E).flatMap serializeEntryCore =
          (ascii "DIRC" ++ u32be v ++ u32be E.length) ++
          ((getAllEntries E).flatMap serializeEntryCore ++ []) from by simp]
      rw [(getAllEntries_perm E).length_eq] at hloop
      exact hloop]
    simp

/-- Concrete entries for witnesses. -/
def wSha : Bytes := ascii "aaaaaaaaaaaaaaaaaaaaaaaaaaaaaaaaaaaaaaaa"

def wEntryA : IndexEntry := ⟨⟨1, 2⟩, ⟨3, 4⟩, 5, 6, 33188, 7, 8, 9, wSha, 5, ascii "a.txt"⟩

def wEntryB : IndexEntry := ⟨⟨1, 2⟩, ⟨3, 4⟩, 5, 6, 33188, 7, 8, 9, wSha, 5, ascii "b.txt"⟩

/-- C2: for every entry set `E` with pairwise-distinct paths and
well-formed fields, `Index.deserialize (Index.serialize E)` succeeds and
yields exactly the entries of `E` — equal in all fields — in sorted path
order. -/
theorem C2_index_roundtrip (v : Nat) (E : List IndexEntry)
    (hv : v < 4294967296) (hcnt : E.length < 4294967296)
    (hval : ∀ x ∈ E, ValidIndexEntry x)
    (hdist : List.Pairwise (fun a b => a.path ≠ b.path) E) :
    ∃ bs, serializeIdx ⟨v, E⟩ = .ok bs ∧
      deserializeIdx bs = .ok ⟨v, getAllEntries E⟩ ∧
      List.Perm (getAllEntries E) E := by
  obtain ⟨bs, h1, h2⟩ := deserializeIdx_serializeIdx v E hv hcnt hval hdist
  exact ⟨bs, h1, h2, getAllEntries_perm E⟩

/-- Witness for C2 at a concrete two-entry index. -/
theorem C2_index_roundtrip_witness :
    ∃ bs, serializeIdx ⟨2, [wEntryB, wEntryA]⟩ = .ok bs ∧
      deserializeIdx bs = .ok ⟨2, getAllEntries [wEntryB, wEntryA]⟩ ∧
      List.Perm (getAllEntries [wEntryB, wEntryA]) [wEntryB, wEntryA] :=
  C2_index_roundtrip 2 [wEntryB, wEntryA] (by decide) (by decide)
    (by decide) (by decide)

/-- C3: `getAllEntries` is insertion-order independent, its output is
strictly ascending in byte-wise path order, and `serialize` emits the
entries in exactly that order between the header and the checksum. -/
theorem C3_serialize_path_order (v : Nat) (E1 E2 : List IndexEntry)
    (hperm : List.Perm E1 E2)
    (hdist : List.Pairwise (fun a b => a.path ≠ b.path) E1)
    (hlen40 : ∀ x ∈ E1, x.objectId.length = 40) :
    getAllEntries E1 = getAllEntries E2 ∧
    List.Sorted (keyLt pathKey) (getAllEntries E1) ∧
    serializeIdx ⟨v, E1⟩ = .ok (
      ((ascii "DIRC" ++ u32be v ++ u32be E1.length) ++
        (getAllEntries E1).flatMap serializeEntryCore) ++
      sha1 ((ascii "DIRC" ++ u32be v ++ u32be E1.length) ++
        (getAllEntries E1).flatMap serializeEntryCore)) := by
  refine ⟨?_, ?_, ?_⟩
  · exact jsSortBy_eq_of_perm pathKey hperm hdist
  · show List.Sorted (keyLt pathKey) (jsSortBy pathKey E1)
    refine sorted_keyLt_of_sorted_keyLe pathKey (jsSortBy_sorted pathKey E1) ?_
    exact ((jsSortBy_perm pathKey E1).pairwise_iff (fun h he => h he.symm)).2 hdist
  · show ((match serializeEntries (getAllEntries E1) with
      | Except.error err => Except.error err
      | Except.ok entryBytes =>
        Except.ok (((ascii "DIRC" ++ u32be v ++ u32be E1.length) ++ entryBytes) ++
          sha1 ((ascii "DIRC" ++ u32be v ++ u32be E1.length) ++ entryBytes))) :
      Except IdxError Bytes) = _
    rw [serializeEntries_ok
      (fun x hx => hlen40 x ((getAllEntries_perm E1).mem_iff.mp hx))]

/-- Witness for C3 on two permuted insertion orders. -/
theorem C3_serialize_path_order_witness :
    getAllEntries [wEntryB, wEntryA] = getAllEntries [wEntryA, wEntryB] ∧
    List.Sorted (keyLt pathKey) (getAllEntries [wEntryB, wEntryA]) ∧
    serializeIdx ⟨2, [wEntryB, wEntryA]⟩ = .ok (
      ((ascii "DIRC" ++ u32be 2 ++ u32be ([wEntryB, wEntryA] : List IndexEntry).length) ++
        (getAllEntries [wEntryB, wEntryA]).flatMap serializeEntryCore) ++
      sha1 ((ascii "DIRC" ++ u32be 2 ++ u32be ([wEntryB, wEntryA] : List IndexEntry).length) ++
        (getAllEntries [wEntryB, wEntryA]).flatMap serializeEntryCore)) :=
  C3_serialize_path_order 2 [wEntryB, wEntryA] [wEntryA, wEntryB]
    (by decide) (by decide) (by decide)

/-- C4: the deserialize loop locates the next entry by the padded size
computed from the parsed entry's actual path length, and a saturated
`0xFFF` flags length field makes `parseEntry` recover the true path (by
scanning forward to the terminating NUL). -/
theorem C4_padded_advance (data : Bytes) (offset : Nat) (acc : List IndexEntry)
    (i : Nat) (entry : IndexEntry)
    (hofs : offset < data.length)
    (hparse : parseEntry data offset = .ok entry) :
    parseEntriesLoop (i + 1) data offset acc =
      parseEntriesLoop i data (offset + calculatePaddedSize entry.path.length)
        (mapSet acc entry) ∧
    ∀ (A R : Bytes) (e : IndexEntry), ValidIndexEntry e → 4095 ≤ e.path.length →
      e.flags % 4096 = 4095 ∧
      parseEntry (A ++ (serializeEntryCore e ++ R)) A.length = .ok e := by
  constructor
  · rw [parseEntriesLoop]
    rw [if_neg (by omega : ¬ offset ≥ data.length)]
    rw [hparse]
  · intro A R e hv hsat
    refine ⟨?_, parseEntry_at A R e hv⟩
    have hfl : e.flags % 4096 = min e.path.length 4095 :=
      hv.2.2.2.2.2.2.2.2.2.2.2.2.2.2.1
    rw [hfl]
    exact Nat.min_eq_right hsat

/-- Witness for C4 at a concrete parsed entry. -/
theorem C4_padded_advance_witness :
    (parseEntriesLoop (0 + 1) ([] ++ (serializeEntryCore wEntryA ++ [])) 0 [] =
      parseEntriesLoop 0 ([] ++ (serializeEntryCore wEntryA ++ []))
        (0 + calculatePaddedSize wEntryA.path.length) (mapSet [] wEntryA)) ∧
    ∀ (A R : Bytes) (e : IndexEntry), ValidIndexEntry e → 4095 ≤ e.path.length →
      e.flags % 4096 = 4095 ∧
      parseEntry (A ++ (serializeEntryCore e ++ R)) A.length = .ok e :=
  C4_padded_advance ([] ++ (serializeEntryCore wEntryA ++ [])) 0 [] 0 wEntryA
    (by decide) (parseEntry_at [] [] wEntryA (by decide))

/-- C10: a missing index file (ENOENT) yields a fresh empty index (version
2, zero entries) instead of failing, while every other read error and
every parse error propagates to the caller. -/
theorem C10_fromFile_enoent :
    fromFile (.error .enoent) = .ok ⟨2, []⟩ ∧
    fromFile (.error .other) = .error (Sum.inl .other) ∧
    (∀ data idx, deserializeIdx data = .ok idx → fromFile (.ok data) = .ok idx) ∧
    (∀ data err, deserializeIdx data = .error err →
      fromFile (.ok data) = .error (Sum.inr err)) := by
  refine ⟨rfl, rfl, ?_, ?_⟩
  · intro data idx h
    show (match deserializeIdx data with
      | Except.ok idx => (Except.ok idx : Except (FsErr ⊕ IdxError) Index)
      | Except.error err => Except.error (Sum.inr err)) = _
    rw [h]
  · intro data err h
    show (match deserializeIdx data with
      | Except.ok idx => (Except.ok idx : Except (FsErr ⊕ IdxError) Index)
      | Except.error err => Except.error (Sum.inr err)) = _
    rw [h]

/-- Witness exercising C10 on a concrete failing parse. -/
theorem C10_fromFile_enoent_witness :
    fromFile (.ok (ascii "x")) = .error (Sum.inr IdxError.tooShort) :=
  C10_fromFile_enoent.2.2.2 (ascii "x") IdxError.tooShort rfl

/-! ## Tree builders (`CommitService`) -/

/-- `TreeNode` of the hierarchical builder: name, `type` (file?), optional
index entry, and the `children` map (as its insertion-ordered pairs). -/
inductive TreeNode where
  | mk (name : Bytes) (isFile : Bool) (entry : Option IndexEntry)
      (children : List (Bytes × TreeNode)) : TreeNode
  deriving Repr

def TreeNode.children : TreeNode → List (Bytes × TreeNode)
  | .mk _ _ _ ch => ch

def TreeNode.withChildren : TreeNode → List (Bytes × TreeNode) → TreeNode
  | .mk n f e _, ch => .mk n f e ch

/-- `Map.get` on the children map. -/
def childGet (children : List (Bytes × TreeNode)) (k : Bytes) : Option TreeNode :=
  match children.find? (fun p => p.1 == k) with
  | some p => some p.2
  | none => none

/-- `Map.set` on the children map: replace in place or append. -/
def childSet (children : List (Bytes × TreeNode)) (k : Bytes) (v : TreeNode) :
    List (Bytes × TreeNode) :=
  if children.any (fun p => p.1 == k) then
    children.map (fun p => if p.1 = k then (k, v) else p)
  else children ++ [(k, v)]

/-- `entry.path.split("/").filter(part => part.length > 0)`. -/
def splitOnSlash (p : Bytes) : List Bytes :=
  (p.splitOn 47).filter (fun s => decide (0 < s.length))

/-- The per-entry walk of `buildDirectoryTree`: create missing directory
nodes along the path, and set the file node at the last part. -/
def insertParts (entry : IndexEntry) :
    List (Bytes × TreeNode) → List Bytes → List (Bytes × TreeNode)
  | children, [] => children
  | children, [part] =>
    childSet children part (.mk part true (some entry) [])
  | children, part :: rest1 :: rest2 =>
    let cur := match childGet children part with
      | some n => n
      | none => TreeNode.mk part false none []
    childSet children part
      (cur.withChildren (insertParts entry cur.children (rest1 :: rest2)))

/-- `CommitService.buildDirectoryTree` (part_027). -/
def buildDirectoryTree (entries : List IndexEntry) : TreeNode :=
  .mk [] false none
    (entries.foldl (fun ch e => insertParts e ch (splitOnSlash e.path)) [])

/-- `mode.toString(8)`, fuel-indexed like `natDecimal`. -/
def natOctalAux : Nat → Nat → Bytes
  | 0, _ => []
  | f + 1, n => if n < 8 then [48 + n] else natOctalAux f (n / 8) ++ [48 + n % 8]

def natOctal (n : Nat) : Bytes := natOctalAux (n + 1) n

/-- `padStart(6, "0")`. -/
def padStartZeros (w : Nat) (s : Bytes) : Bytes := List.replicate (w - s.length) 48 ++ s

/-- `CommitService.formatFileMode`. -/
def formatFileMode (mode : Nat) : Bytes :=
  if mode &&& 32768 ≠ 0 then
    (if mode &&& 73 ≠ 0 then ascii "100755" else ascii "100644")
  else padStartZeros 6 (natOctal mode)

/-- `CommitService.createTreeObject` (part_027), fuel-indexed: children
sorted by map key in binary order, file children emitted directly,
directory children recursively written; returns the objects written (in
write order, the node last) and the returned sha. -/
def createTreeObject (tz : Int → Int) : Nat → TreeNode → (List GitObject × Bytes)
  | 0, _ => ([], [])
  | f + 1, node =>
    let sorted := jsSortBy (fun p : Bytes × TreeNode => p.1) node.children
    let res := sorted.foldl (fun acc p =>
      match p.2 with
      | .mk nm true (some entry) _ =>
        (acc.1, acc.2 ++ [⟨formatFileMode entry.mode, nm, entry.objectId⟩])
      | .mk _ true none _ => acc
      | .mk nm false e ch =>
        let sub := createTreeObject tz f (.mk nm false e ch)
        (acc.1 ++ sub.1, acc.2 ++ [⟨ascii "040000", nm, sub.2⟩])) ([], [])
    (res.1 ++ [GitObject.tree res.2], getShaHex tz (GitObject.tree res.2))

/-- `entry.path.split("/").pop() ?? entry.path`. -/
def lastPathComponent (p : Bytes) : Bytes :=
  match (p.splitOn 47).getLast? with
  | some x => x
  | none => p

/-- The non-hierarchical baseline `CommitService.buildTreeFromIndex`: map
entries to tree entries, sort by `localeCompare` (modelled as an arbitrary
locale-dependent reordering), build one `Tree`. -/
def buildTreeFlatBaseline (localeSort : List TreeEntry → List TreeEntry)
    (entries : List IndexEntry) : GitObject :=
  GitObject.tree (localeSort (entries.map
    (fun e => ⟨formatFileMode e.mode, lastPathComponent e.path, e.objectId⟩)))

/-! ### Tree builder proofs -/

theorem splitOnSlash_flat {p : Bytes} (hne : p ≠ []) (hns : (47 : Nat) ∉ p) :
    splitOnSlash p = [p] := by
  have h1 : p.splitOn 47 = [p] := by
    show p.splitOnP (fun x => x == 47) = [p]
    exact List.splitOnP_eq_single _ _ (fun x hx hbeq => hns (by
      have hx47 : x = 47 := by simpa using hbeq
      rwa [hx47] at hx))
  unfold splitOnSlash
  rw [h1]
  simp [List.length_pos.mpr hne]

theorem lastPathComponent_flat {p : Bytes} (hns : (47 : Nat) ∉ p) :
    lastPathComponent p = p := by
  have h1 : p.splitOn 47 = [p] := by
    show p.splitOnP (fun x => x == 47) = [p]
    exact List.splitOnP_eq_single _ _ (fun x hx hbeq => hns (by
      have hx47 : x = 47 := by simpa using hbeq
      rwa [hx47] at hx))
  unfold lastPathComponent
  rw [h1]
  rfl

theorem childSet_append {ch : List (Bytes × TreeNode)} {k : Bytes} {v : TreeNode}
    (h : ∀ p ∈ ch, p.1 ≠ k) : childSet ch k v = ch ++ [(k, v)] := by
  have hnc : ¬ (ch.any (fun p => p.1 == k) = true) := by
    rw [List.any_eq_true]
    rintro ⟨p, hp, heq⟩
    exact h p hp (by simpa using heq)
  unfold childSet
  rw [if_neg hnc]

/-- Building the directory tree from flat (slash-free, nonempty-path)
entries appends one file node per entry, in insertion order. -/
theorem buildFlat_fold : ∀ (E : List IndexEntry) (acc : List (Bytes × TreeNode)),
    (∀ e ∈ E, e.path ≠ [] ∧ (47 : Nat) ∉ e.path) →
    (∀ e ∈ E, ∀ p ∈ acc, p.1 ≠ e.path) →
    List.Pairwise (fun a b => a.path ≠ b.path) E →
    E.foldl (fun ch e => insertParts e ch (splitOnSlash e.path)) acc =
      acc ++ E.map (fun e => (e.path, TreeNode.mk e.path true (some e) []))
  | [], acc, _, _, _ => by simp
  | e :: rest, acc, hflat, hacc, hpair => by
    obtain ⟨hne, hns⟩ := hflat e (List.mem_cons_self e rest)
    rw [List.foldl_cons]
    rw [show insertParts e acc (splitOnSlash e.path) =
        acc ++ [(e.path, TreeNode.mk e.path true (some e) [])] from by
      rw [splitOnSlash_flat hne hns]
      exact childSet_append (fun p hp => hacc e (List.mem_cons_self e rest) p hp)]
    rw [List.pairwise_cons] at hpair
    rw [buildFlat_fold rest (acc ++ [(e.path, TreeNode.mk e.path true (some e) [])])
      (fun x hx => hflat x (List.mem_cons_of_mem e hx))
      (fun x hx p hp => by
        rcases List.mem_append.mp hp with hp1 | hp1
        · exact hacc x (List.mem_cons_of_mem e hx) p hp1
        · rw [List.mem_singleton] at hp1
          rw [hp1]
          show e.path ≠ x.path
          exact hpair.1 x hx)
      hpair.2]
    simp

def fileEntryOf : TreeNode → TreeEntry
  | .mk nm _ (some e) _ => ⟨formatFileMode e.mode, nm, e.objectId⟩
  | .mk nm _ none _ => ⟨[], nm, []⟩

/-- The fold of `createTreeObject` over file children only: no writes, one
tree entry per child. -/
theorem treeFold_files (tz : Int → Int) (f : Nat) :
    ∀ (l : List (Bytes × TreeNode)) (w : List GitObject) (ts : List TreeEntry),
    (∀ p ∈ l, ∃ nm e, p.2 = TreeNode.mk nm true (some e) []) →
    l.foldl (fun acc p =>
      match p.2 with
      | .mk nm true (some entry) _ =>
        (acc.1, acc.2 ++ [(⟨formatFileMode entry.mode, nm, entry.objectId⟩ : TreeEntry)])
      | .mk _ true none _ => acc
      | .mk nm false e ch =>
        let sub := createTreeObject tz f (.mk nm false e ch)
        (acc.1 ++ sub.1, acc.2 ++ [⟨ascii "040000", nm, sub.2⟩])) (w, ts) =
      (w, ts ++ l.map (fun p => fileEntryOf p.2))
  | [], w, ts, _ => by simp
  | p :: rest, w, ts, h => by
    obtain ⟨nm, e, hp⟩ := h p (List.mem_cons_self p rest)
    rw [List.foldl_cons]
    simp only
    rw [hp]
    simp only
    rw [treeFold_files tz f rest _ _ (fun q hq => h q (List.mem_cons_of_mem p hq))]
    simp [fileEntryOf, hp]

/-- `createTreeObject` only looks at the (sorted) children map. -/
theorem createTreeObject_congr (tz : Int → Int) (f : Nat)
    {n1 n2 : Bytes} {b1 b2 : Bool} {e1 e2 : Option IndexEntry}
    {l1 l2 : List (Bytes × TreeNode)}
    (hs : jsSortBy (fun p : Bytes × TreeNode => p.1) l1 =
      jsSortBy (fun p : Bytes × TreeNode => p.1) l2) :
    createTreeObject tz (f + 1) (.mk n1 b1 e1 l1) =
      createTreeObject tz (f + 1) (.mk n2 b2 e2 l2) := by
  rw [createTreeObject, createTreeObject]
  simp only [TreeNode.children]
  rw [hs]

/-- Distinct slash-free names give distinct tree sort keys. -/
theorem treeSortKey_ne {a b : TreeEntry} (hn : a.name ≠ b.name)
    (ha : (47 : Nat) ∉ a.name) (hb : (47 : Nat) ∉ b.name) :
    treeSortKey a ≠ treeSortKey b := by
  unfold treeSortKey
  split <;> split <;> intro h
  · exact hn (by simpa using h)
  · exact hb (h ▸ List.mem_append_right a.name (List.mem_singleton.mpr rfl))
  · exact ha (h.symm ▸ List.mem_append_right b.name (List.mem_singleton.mpr rfl))
  · exact hn h

/-- C5: tree serialization is canonical — permuting the entry list (with
distinct sort keys, directories keyed as `name + "/"`) leaves the
serialized bytes and the SHA-1 unchanged; consequently the hierarchical
builder produces the same root tree hash for any insertion order of a
flat path set. -/
theorem C5_tree_canonical (tz : Int → Int) (es1 es2 : List TreeEntry)
    (hperm : List.Perm es1 es2)
    (hkeys : List.Pairwise (fun a b => treeSortKey a ≠ treeSortKey b) es1) :
    treeContent es1 = treeContent es2 ∧
    serializeObj tz (.tree es1) = serializeObj tz (.tree es2) ∧
    getShaHex tz (.tree es1) = getShaHex tz (.tree es2) ∧
    (∀ (E1 E2 : List IndexEntry) (f : Nat), List.Perm E1 E2 →
      (∀ e ∈ E1, e.path ≠ [] ∧ (47 : Nat) ∉ e.path) →
      List.Pairwise (fun a b => a.path ≠ b.path) E1 →
      (createTreeObject tz (f + 1) (buildDirectoryTree E1)).2 =
        (createTreeObject tz (f + 1) (buildDirectoryTree E2)).2) := by
  have hcontent : treeContent es1 = treeContent es2 := by
    unfold treeContent
    rw [jsSortBy_eq_of_perm treeSortKey hperm hkeys]
  have hser : serializeObj tz (.tree es1) = serializeObj tz (.tree es2) :=
    serializeObj_congr rfl hcontent
  refine ⟨hcontent, hser, ?_, ?_⟩
  · unfold getShaHex
    rw [hser]
  · intro E1 E2 f hpermE hflat hdist
    have hch1 : buildDirectoryTree E1 = TreeNode.mk [] false none
        (E1.map (fun e => (e.path, TreeNode.mk e.path true (some e) []))) := by
      unfold buildDirectoryTree
      rw [buildFlat_fold E1 [] hflat (fun e _ p hp => absurd hp (List.not_mem_nil p)) hdist]
      rw [List.nil_append]
    have hch2 : buildDirectoryTree E2 = TreeNode.mk [] false none
        (E2.map (fun e => (e.path, TreeNode.mk e.path true (some e) []))) := by
      unfold buildDirectoryTree
      rw [buildFlat_fold E2 []
        (fun e he => hflat e (hpermE.mem_iff.mpr he))
        (fun e _ p hp => absurd hp (List.not_mem_nil p))
        ((hpermE.pairwise_iff (fun h he => h he.symm)).1 hdist)]
      rw [List.nil_append]
    rw [hch1, hch2]
    rw [createTreeObject_congr tz f
      (jsSortBy_eq_of_perm (fun p : Bytes × TreeNode => p.1)
        (hpermE.map (fun e => (e.path, TreeNode.mk e.path true (some e) [])))
        (by
          rw [List.pairwise_map]
          exact hdist))]

/-- Witness for C5 on a two-entry permutation. -/
theorem C5_tree_canonical_witness :
    (treeContent [(⟨ascii "100644", ascii "b", wSha⟩ : TreeEntry), ⟨ascii "100644", ascii "a", wSha⟩] =
      treeContent [(⟨ascii "100644", ascii "a", wSha⟩ : TreeEntry), ⟨ascii "100644", ascii "b", wSha⟩]) ∧
    (serializeObj (fun _ => 0)
        (.tree [(⟨ascii "100644", ascii "b", wSha⟩ : TreeEntry), ⟨ascii "100644", ascii "a", wSha⟩]) =
      serializeObj (fun _ => 0)
        (.tree [(⟨ascii "100644", ascii "a", wSha⟩ : TreeEntry), ⟨ascii "100644", ascii "b", wSha⟩])) ∧
    (getShaHex (fun _ => 0)
        (.tree [(⟨ascii "100644", ascii "b", wSha⟩ : TreeEntry), ⟨ascii "100644", ascii "a", wSha⟩]) =
      getShaHex (fun _ => 0)
        (.tree [(⟨ascii "100644", ascii "a", wSha⟩ : TreeEntry), ⟨ascii "100644", ascii "b", wSha⟩])) ∧
    (∀ (E1 E2 : List IndexEntry) (f : Nat), List.Perm E1 E2 →
      (∀ e ∈ E1, e.path ≠ [] ∧ (47 : Nat) ∉ e.path) →
      List.Pairwise (fun a b => a.path ≠ b.path) E1 →
      (createTreeObject (fun _ => 0) (f + 1) (buildDirectoryTree E1)).2 =
        (createTreeObject (fun _ => 0) (f + 1) (buildDirectoryTree E2)).2) :=
  C5_tree_canonical (fun _ => 0)
    [⟨ascii "100644", ascii "b", wSha⟩, ⟨ascii "100644", ascii "a", wSha⟩]
    [⟨ascii "100644", ascii "a", wSha⟩, ⟨ascii "100644", ascii "b", wSha⟩]
    (by decide) (by decide)

/-- C6: on a non-empty flat path set (no `/`), the hierarchical builder
writes exactly one Tree, containing only file entries derived from the
index entries, and its serialized bytes and hash equal those of the flat
baseline builder bit-for-bit (for any behaviour of `localeCompare`). -/
theorem C6_flat_bitforbit (tz : Int → Int) (localeSort : List TreeEntry → List TreeEntry)
    (hls : ∀ l, List.Perm (localeSort l) l)
    (E : List IndexEntry) (f : Nat)
    (hne : E ≠ [])
    (hflat : ∀ e ∈ E, e.path ≠ [] ∧ (47 : Nat) ∉ e.path)
    (hdist : List.Pairwise (fun a b => a.path ≠ b.path) E) :
    ∃ TE, createTreeObject tz (f + 1) (buildDirectoryTree E) =
        ([GitObject.tree TE], getShaHex tz (GitObject.tree TE)) ∧
      TE ≠ [] ∧
      (∀ t ∈ TE, ∃ e ∈ E, t = ⟨formatFileMode e.mode, e.path, e.objectId⟩) ∧
      serializeObj tz (GitObject.tree TE) =
        serializeObj tz (buildTreeFlatBaseline localeSort E) ∧
      getShaHex tz (GitObject.tree TE) =
        getShaHex tz (buildTreeFlatBaseline localeSort E) := by
  have hch : buildDirectoryTree E = TreeNode.mk [] false none
      (E.map (fun e => (e.path, TreeNode.mk e.path true (some e) []))) := by
    unfold buildDirectoryTree
    rw [buildFlat_fold E [] hflat (fun e _ p hp => absurd hp (List.not_mem_nil p)) hdist]
    rw [List.nil_append]
  refine ⟨(jsSortBy (fun p : Bytes × TreeNode => p.1)
      (E.map (fun e => (e.path, TreeNode.mk e.path true (some e) [])))).map
      (fun p => fileEntryOf p.2), ?_, ?_, ?_, ?_, ?_⟩
  case _ =>
    rw [hch, createTreeObject]
    simp only [TreeNode.children]
    rw [treeFold_files tz f _ [] []
      (fun p hp => by
        have hp2 := (jsSortBy_perm (fun p : Bytes × TreeNode => p.1) _).mem_iff.mp hp
        obtain ⟨e, _, heq⟩ := List.mem_map.mp hp2
        exact ⟨e.path, e, by rw [← heq]⟩)]
    simp
  all_goals
    have hTEperm : List.Perm
        ((jsSortBy (fun p : Bytes × TreeNode => p.1)
          (E.map (fun e => (e.path, TreeNode.mk e.path true (some e) [])))).map
          (fun p => fileEntryOf p.2))
        (E.map (fun e => (⟨formatFileMode e.mode, e.path, e.objectId⟩ : TreeEntry))) := by
      have h1 := (jsSortBy_perm (fun p : Bytes × TreeNode => p.1)
        (E.map (fun e => (e.path, TreeNode.mk e.path true (some e) [])))).map
        (fun p => fileEntryOf p.2)
      rw [List.map_map] at h1
      exact h1
  case _ =>
    intro hnil
    have hlen := hTEperm.length_eq
    rw [hnil] at hlen
    simp only [List.length_nil, List.length_map] at hlen
    exact hne (List.length_eq_zero.mp hlen.symm)
  case _ =>
    intro t ht
    obtain ⟨e, he, heq⟩ := List.mem_map.mp (hTEperm.mem_iff.mp ht)
    exact ⟨e, he, heq.symm⟩
  all_goals
    have hBE : E.map (fun e =>
        (⟨formatFileMode e.mode, lastPathComponent e.path, e.objectId⟩ : TreeEntry)) =
        E.map (fun e => (⟨formatFileMode e.mode, e.path, e.objectId⟩ : TreeEntry)) :=
      List.map_congr_left (fun e he => by rw [lastPathComponent_flat (hflat e he).2])
    have hpermB : List.Perm
        ((jsSortBy (fun p : Bytes × TreeNode => p.1)
          (E.map (fun e => (e.path, TreeNode.mk e.path true (some e) [])))).map
          (fun p => fileEntryOf p.2))
        (localeSort (E.map (fun e =>
          (⟨formatFileMode e.mode, lastPathComponent e.path, e.objectId⟩ : TreeEntry)))) := by
      refine hTEperm.trans ?_
      rw [hBE]
      exact (hls _).symm
    have hkeysTE : List.Pairwise (fun a b => treeSortKey a ≠ treeSortKey b)
        ((jsSortBy (fun p : Bytes × TreeNode => p.1)
          (E.map (fun e => (e.path, TreeNode.mk e.path true (some e) [])))).map
          (fun p => fileEntryOf p.2)) := by
      refine (hTEperm.pairwise_iff (fun h he => h he.symm)).2 ?_
      rw [List.pairwise_map]
      refine hdist.imp_of_mem ?_
      intro a b ha hb hab
      exact treeSortKey_ne hab (hflat a ha).2 (hflat b hb).2
    have hcontent : treeContent
        ((jsSortBy (fun p : Bytes × TreeNode => p.1)
          (E.map (fun e => (e.path, TreeNode.mk e.path true (some e) [])))).map
          (fun p => fileEntryOf p.2)) =
        treeContent (localeSort (E.map (fun e =>
          (⟨formatFileMode e.mode, lastPathComponent e.path, e.objectId⟩ : TreeEntry)))) := by
      unfold treeContent
      rw [jsSortBy_eq_of_perm treeSortKey hpermB hkeysTE]
  case _ =>
    refine serializeObj_congr rfl ?_
    exact hcontent
  case _ =>
    unfold getShaHex
    refine congrArg sha1hex ?_
    refine serializeObj_congr rfl ?_
    exact hcontent

/-- Witness for C6 with a reversing locale sort on two flat entries. -/
theorem C6_flat_bitforbit_witness :
    ∃ TE, createTreeObject (fun _ => 0) (0 + 1) (buildDirectoryTree [wEntryB, wEntryA]) =
        ([GitObject.tree TE], getShaHex (fun _ => 0) (GitObject.tree TE)) ∧
      TE ≠ [] ∧
      (∀ t ∈ TE, ∃ e ∈ [wEntryB, wEntryA],
        t = ⟨formatFileMode e.mode, e.path, e.objectId⟩) ∧
      serializeObj (fun _ => 0) (GitObject.tree TE) =
        serializeObj (fun _ => 0) (buildTreeFlatBaseline List.reverse [wEntryB, wEntryA]) ∧
      getShaHex (fun _ => 0) (GitObject.tree TE) =
        getShaHex (fun _ => 0) (buildTreeFlatBaseline List.reverse [wEntryB, wEntryA]) :=
  C6_flat_bitforbit (fun _ => 0) List.reverse (fun l => l.reverse_perm)
    [wEntryB, wEntryA] 0 (by decide) (by decide) (by decide)

/-! ## ObjectRepository -/

/-- The objects directory as an association list from the (lowercased)
hash to the stored file bytes; the `aa/bbbb…` path is determined by the
hash. -/
abbrev Store := List (Bytes × Bytes)

def storeGet : Store → Bytes → Option Bytes
  | [], _ => none
  | (k2, v2) :: rest, k => if k2 = k then some v2 else storeGet rest k

/-- Writing a file (temp + rename): replace an existing file in place,
else add a new one. -/
def storeSet (st : Store) (k v : Bytes) : Store :=
  if st.any (fun p => p.1 == k) then
    st.map (fun p => if p.1 = k then (k, v) else p)
  else st ++ [(k, v)]

/-- The `/^[0-9a-f]{40}$/i` test of `getObjectPath`. -/
def isHexDigitCI (c : Nat) : Bool :=
  (48 ≤ c && c ≤ 57) || (97 ≤ c && c ≤ 102) || (65 ≤ c && c ≤ 70)

def validShaFormat (s : Bytes) : Bool :=
  s.length == 40 && s.all isHexDigitCI

/-- One constructor per `ObjectRepositoryError` throw site of `read` and
`getObjectPath`. -/
inductive RepoError where
  | invalidShaFormat
  | notFound
  | shaMismatch
  | deserializationError
  deriving DecidableEq, Repr

/-- The `code` string of each error (`shaMismatch` shares `INVALID_SHA`
with the format error). -/
def RepoError.codeStr : RepoError → Bytes
  | .invalidShaFormat => ascii "INVALID_SHA"
  | .notFound => ascii "NOT_FOUND"
  | .shaMismatch => ascii "INVALID_SHA"
  | .deserializationError => ascii "DESERIALIZATION_ERROR"

/-- `ObjectRepository.read`: validate the hash, read + inflate the file,
deserialize, then compare the deserialized object's `getSha()` (the hash
of its re-serialization) with the requested hash lowercased. -/
def readRepo (tz : Int → Int) (inf : Bytes → Bytes) (st : Store) (sha : Bytes) :
    Except RepoError GitObject :=
  if ¬ validShaFormat sha = true then .error .invalidShaFormat
  else
    match storeGet st (toLower sha) with
    | none => .error .notFound
    | some fileBytes =>
      match deserializeObj (inf fileBytes) with
      | .error _ => .error .deserializationError
      | .ok o =>
        if getShaHex tz o ≠ toLower sha then .error .shaMismatch
        else .ok o

/-- `ObjectRepository.write`: serialize, hash, and skip the write when the
file already exists; else deflate and store. -/
def writeRepo (tz : Int → Int) (defl : Bytes → Bytes) (st : Store) (o : GitObject) :
    Except RepoError (Store × Bytes) :=
  let sha := getShaHex tz o
  if ¬ validShaFormat sha = true then .error .invalidShaFormat
  else
    match storeGet st (toLower sha) with
    | some _ => .ok (st, sha)
    | none => .ok (storeSet st (toLower sha) (defl (serializeObj tz o)), sha)

/-- `ObjectRepository.exists`. -/
def existsRepo (st : Store) (sha : Bytes) : Bool :=
  validShaFormat sha && (storeGet st (toLower sha)).isSome

theorem validShaFormat_getShaHex (tz : Int → Int) (o : GitObject) :
    validShaFormat (getShaHex tz o) = true := by
  unfold validShaFormat
  rw [Bool.and_eq_true]
  constructor
  · rw [beq_iff_eq]
    exact length_sha1hex _
  · rw [List.all_eq_true]
    intro c hc
    have := sha1hex_hexDigits (serializeObj tz o) c hc
    unfold isHexDigit hexDigitVal at this
    unfold isHexDigitCI
    split at this
    · rename_i h
      simp only [Bool.or_eq_true, Bool.and_eq_true, decide_eq_true_eq]
      exact Or.inl (Or.inl ⟨h.1, h.2⟩)
    · split at this
      · rename_i h
        simp only [Bool.or_eq_true, Bool.and_eq_true, decide_eq_true_eq]
        exact Or.inl (Or.inr ⟨h.1, h.2⟩)
      · split at this
        · rename_i h
          simp only [Bool.or_eq_true, Bool.and_eq_true, decide_eq_true_eq]
          exact Or.inr ⟨h.1, h.2⟩
        · simp at this

theorem storeGet_set_self (st : Store) (k v : Bytes) :
    storeGet (storeSet st k v) k = some v := by
  unfold storeSet
  split
  · rename_i hany
    rw [List.any_eq_true] at hany
    obtain ⟨p, hp, hpk⟩ := hany
    induction st with
    | nil => simp at hp
    | cons q rest ih =>
      rw [List.map_cons]
      by_cases hq : q.1 = k
      · rw [if_pos hq]
        show storeGet ((k, v) :: _) k = some v
        unfold storeGet
        rw [if_pos rfl]
      · rw [if_neg hq]
        show storeGet (q :: _) k = some v
        rw [show (q : Bytes × Bytes) = (q.1, q.2) from rfl, storeGet]
        rw [if_neg hq]
        rcases List.mem_cons.mp hp with hp1 | hp1
        · exact absurd (by rw [← hp1]; simpa using hpk) hq
        · exact ih hp1
  · induction st with
    | nil =>
      show storeGet ((k, v) :: []) k = some v
      unfold storeGet
      rw [if_pos rfl]
    | cons q rest ih =>
      rename_i hnot
      rw [List.cons_append, show (q : Bytes × Bytes) = (q.1, q.2) from rfl, storeGet]
      rw [if_neg (fun hq => hnot (by
        rw [List.any_eq_true]
        exact ⟨q, List.mem_cons_self q rest, by simpa using hq⟩))]
      exact ih (fun hany => hnot (by
        rw [List.any_eq_true] at hany ⊢
        obtain ⟨p, hp, hpk⟩ := hany
        exact ⟨p, List.mem_cons_of_mem q hp, hpk⟩))

theorem storeSet_fresh {st : Store} {k : Bytes} (v : Bytes)
    (h : storeGet st k = none) : storeSet st k v = st ++ [(k, v)] := by
  have hany : ¬ (st.any (fun p => p.1 == k) = true) := by
    induction st with
    | nil => simp
    | cons q rest ih =>
      rw [show (q : Bytes × Bytes) = (q.1, q.2) from rfl, storeGet] at h
      rw [List.any_cons]
      split at h
      · simp at h
      · rename_i hq
        simp only [Bool.or_eq_true]
        rintro (hq1 | hrest)
        · exact hq (by simpa using hq1)
        · exact (ih h) hrest
  unfold storeSet
  rw [if_neg hany]

/-- C7: when the target file already exists, `write` returns the hash
without touching the store (no recompression, no rewrite); two objects
with identical serialized bytes hash identically, and writing them in
sequence adds exactly one file. -/
theorem C7_write_idempotent (tz : Int → Int) (defl : Bytes → Bytes)
    (st : Store) (o o2 : GitObject)
    (hbytes : serializeObj tz o2 = serializeObj tz o) :
    (∀ c, storeGet st (toLower (getShaHex tz o)) = some c →
      writeRepo tz defl st o = .ok (st, getShaHex tz o)) ∧
    getShaHex tz o2 = getShaHex tz o ∧
    (storeGet st (toLower (getShaHex tz o)) = none →
      writeRepo tz defl st o =
        .ok (st ++ [(toLower (getShaHex tz o), defl (serializeObj tz o))],
          getShaHex tz o) ∧
      writeRepo tz defl
          (st ++ [(toLower (getShaHex tz o), defl (serializeObj tz o))]) o2 =
        .ok (st ++ [(toLower (getShaHex tz o), defl (serializeObj tz o))],
          getShaHex tz o)) := by
  have hsha2 : getShaHex tz o2 = getShaHex tz o := by
    unfold getShaHex
    rw [hbytes]
  have hvn : ¬ ¬ (validShaFormat (getShaHex tz o) = true) :=
    fun hn => hn (validShaFormat_getShaHex tz o)
  have hvn2 : ¬ ¬ (validShaFormat (getShaHex tz o2) = true) :=
    fun hn => hn (validShaFormat_getShaHex tz o2)
  refine ⟨?_, hsha2, ?_⟩
  · intro c hc
    unfold writeRepo
    simp only
    rw [if_neg hvn, hc]
  · intro hnone
    constructor
    · unfold writeRepo
      simp only
      rw [if_neg hvn, hnone]
      rw [storeSet_fresh _ hnone]
    · unfold writeRepo
      simp only
      rw [if_neg hvn2, hsha2]
      rw [show storeGet (st ++ [(toLower (getShaHex tz o), defl (serializeObj tz o))])
          (toLower (getShaHex tz o)) = some (defl (serializeObj tz o)) from by
        rw [← storeSet_fresh _ hnone]
        exact storeGet_set_self st _ _]

/-- Witness for C7: writing the same blob twice into an empty store. -/
theorem C7_write_idempotent_witness :
    (∀ c, storeGet [] (toLower (getShaHex (fun _ => 0) (.blob (ascii "hi")))) = some c →
      writeRepo (fun _ => 0) (fun b => b) [] (.blob (ascii "hi")) =
        .ok ([], getShaHex (fun _ => 0) (.blob (ascii "hi")))) ∧
    getShaHex (fun _ => 0) (.blob (ascii "hi")) =
      getShaHex (fun _ => 0) (.blob (ascii "hi")) ∧
    (storeGet [] (toLower (getShaHex (fun _ => 0) (.blob (ascii "hi")))) = none →
      writeRepo (fun _ => 0) (fun b => b) [] (.blob (ascii "hi")) =
        .ok ([] ++ [(toLower (getShaHex (fun _ => 0) (.blob (ascii "hi"))),
          (fun b => b) (serializeObj (fun _ => 0) (.blob (ascii "hi"))))],
          getShaHex (fun _ => 0) (.blob (ascii "hi"))) ∧
      writeRepo (fun _ => 0) (fun b => b)
          ([] ++ [(toLower (getShaHex (fun _ => 0) (.blob (ascii "hi"))),
            (fun b => b) (serializeObj (fun _ => 0) (.blob (ascii "hi"))))])
          (.blob (ascii "hi")) =
        .ok ([] ++ [(toLower (getShaHex (fun _ => 0) (.blob (ascii "hi"))),
          (fun b => b) (serializeObj (fun _ => 0) (.blob (ascii "hi"))))],
          getShaHex (fun _ => 0) (.blob (ascii "hi")))) :=
  C7_write_idempotent (fun _ => 0) (fun b => b) [] (.blob (ascii "hi"))
    (.blob (ascii "hi")) rfl

def wStored : Bytes := ascii "blob 02" ++ [0] ++ ascii "hi"

def wKey : Bytes := getShaHex (fun _ => 0) (.blob (ascii "hi"))

set_option maxRecDepth 10000 in
/-- C8 counterexample: the stored bytes `"blob 02\0hi"` hash differently
from the requested hash (which is the hash of the canonical
re-serialization `"blob 2\0hi"`), yet `read` succeeds: the integrity check
compares the re-serialized object's hash, not the decompressed bytes'
hash. -/
theorem C8_counterexample :
    readRepo (fun _ => 0) (fun b => b) [(wKey, wStored)] wKey =
      .ok (.blob (ascii "hi")) ∧
    sha1hex ((fun (b : Bytes) => b) wStored) ≠ toLower wKey := by
  constructor
  · rfl
  · decide

/-- C8 (amended): `read` rejects non-40-hex-character hashes with the
invalid-format error, missing files with not-found, failed parses with the
deserialization error, and otherwise compares the *re-serialized* object's
hash (`getSha()`) with the lowercased request, succeeding exactly when they
agree. -/
theorem C8_read_taxonomy (tz : Int → Int) (inf : Bytes → Bytes) (st : Store)
    (sha : Bytes) :
    (validShaFormat sha = false → readRepo tz inf st sha = .error .invalidShaFormat) ∧
    (validShaFormat sha = true → storeGet st (toLower sha) = none →
      readRepo tz inf st sha = .error .notFound) ∧
    (∀ fileBytes, validShaFormat sha = true →
      storeGet st (toLower sha) = some fileBytes →
      (∀ e, deserializeObj (inf fileBytes) = .error e →
        readRepo tz inf st sha = .error .deserializationError) ∧
      (∀ o, deserializeObj (inf fileBytes) = .ok o →
        (getShaHex tz o ≠ toLower sha → readRepo tz inf st sha = .error .shaMismatch) ∧
        (getShaHex tz o = toLower sha → readRepo tz inf st sha = .ok o))) := by
  refine ⟨?_, ?_, ?_⟩
  · intro hbad
    unfold readRepo
    rw [if_pos (by rw [hbad]; simp)]
  · intro hok hnone
    unfold readRepo
    rw [if_neg (fun hn => hn hok), hnone]
  · intro fileBytes hok hsome
    constructor
    · intro e he
      unfold readRepo
      rw [if_neg (fun hn => hn hok), hsome]
      simp only
      rw [he]
    · intro o ho
      constructor
      · intro hne
        unfold readRepo
        rw [if_neg (fun hn => hn hok), hsome]
        simp only
        rw [ho]
        simp only
        rw [if_pos hne]
      · intro heq
        unfold readRepo
        rw [if_neg (fun hn => hn hok), hsome]
        simp only
        rw [ho]
        simp only
        rw [if_neg (fun hn => hn heq)]

set_option maxRecDepth 10000 in
/-- Witness for C8 at a concrete hash-mismatching store. -/
theorem C8_read_taxonomy_witness :
    readRepo (fun _ => 0) (fun b => b)
      [(wSha, serializeObj (fun _ => 0) (.blob (ascii "hi")))] wSha =
      .error .shaMismatch :=
  (((C8_read_taxonomy (fun _ => 0) (fun b => b)
      [(wSha, serializeObj (fun _ => 0) (.blob (ascii "hi")))] wSha).2.2
    (serializeObj (fun _ => 0) (.blob (ascii "hi"))) (by decide) rfl).2
    (.blob (ascii "hi")) rfl).1 (by decide)

end Mygit
